import Mathlib

/-!
Verification development for the workflow subsystem of the `autotest`
repository: dependency graph (`dependency_graph.py`), expression engine
(`expressions.py`), response validator (`validator.py`), workflow executor
(`executor.py`) and the result models (`models.py`).

The Python code is shallowly embedded: Python JSON-like runtime values
become the mutual inductive `V`; dict/set based state becomes association
lists or explicit functional state; environment interaction (HTTP calls,
clocks, random generators) is abstracted into explicit oracle parameters;
exceptions become `Except`/`Option` results.  Floating point numbers are
not modelled: numeric values are integers (the workflow paths verified
here never produce non-integral numbers).
-/

/-! ## Python value model

A Python JSON-like value as produced by `response.json()` and manipulated
by the workflow engine: `None`, `bool`, `int`, `str`, `list`, `dict`.
Mutual inductives are used so that all functions below are structurally
recursive and kernel-reducible.
-/

mutual

/-- A Python runtime value (floats not modelled). -/
inductive V where
  | null
  | bool (b : Bool)
  | int (n : Int)
  | str (s : String)
  | list (xs : VList)
  | dict (kvs : VDict)
deriving DecidableEq

/-- A Python list of values. -/
inductive VList where
  | nil
  | cons (v : V) (t : VList)
deriving DecidableEq

/-- A Python dict with string keys, kept in insertion order. -/
inductive VDict where
  | nil
  | cons (k : String) (v : V) (t : VDict)
deriving DecidableEq

end

/-- Build a `VList` from a Lean list. -/
def VList.ofList : List V → VList
  | [] => .nil
  | v :: t => .cons v (VList.ofList t)

/-- View a `VList` as a Lean list. -/
def VList.toList : VList → List V
  | .nil => []
  | .cons v t => v :: VList.toList t

/-- Build a `VDict` from a Lean association list. -/
def VDict.ofList : List (String × V) → VDict
  | [] => .nil
  | (k, v) :: t => .cons k v (VDict.ofList t)

/-- View a `VDict` as a Lean association list. -/
def VDict.toList : VDict → List (String × V)
  | .nil => []
  | .cons k v t => (k, v) :: VDict.toList t

/-- Number of entries of a `VDict` (Python `len`). -/
def VDict.length : VDict → Nat
  | .nil => 0
  | .cons _ _ t => 1 + VDict.length t

/-- Number of elements of a `VList` (Python `len`). -/
def VList.length : VList → Nat
  | .nil => 0
  | .cons _ t => 1 + VList.length t

/-- Python `d[k]` / `d.get(k)`: first value stored under key `k`. -/
def VDict.get : VDict → String → Option V
  | .nil, _ => none
  | .cons k v t, key => if k = key then some v else VDict.get t key

/-- Python `k in d` for a dict. -/
def VDict.hasKey (d : VDict) (key : String) : Bool := (d.get key).isSome

/-- Python `list[i]` with negative-index support; `none` models `IndexError`. -/
def VList.getIdx (xs : VList) (i : Int) : Option V :=
  let n : Int := (xs.length : Int)
  let j : Int := if i < 0 then n + i else i
  if j < 0 then none
  else go xs j.toNat
where
  /-- Zero-based positional access. -/
  go : VList → Nat → Option V
    | .nil, _ => none
    | .cons v _, 0 => some v
    | .cons _ t, n + 1 => go t n

/-- Python truthiness (`bool(v)`). -/
def V.truthy : V → Bool
  | .null => false
  | .bool b => b
  | .int n => n ≠ 0
  | .str s => s ≠ ""
  | .list xs => xs.length ≠ 0
  | .dict kvs => kvs.length ≠ 0

mutual

/-- Python `==` on values: `bool` and `int` compare equal numerically
(`True == 1`), dicts compare as key/value mappings (same size and every
entry of the left dict matched in the right; dict keys are unique in every
dict a Python program can build), lists elementwise. -/
def V.eqPy : V → V → Bool
  | .null, .null => true
  | .bool a, .bool b => a = b
  | .bool a, .int n => (if a then (1 : Int) else 0) = n
  | .int n, .bool a => n = (if a then (1 : Int) else 0)
  | .int n, .int m => n = m
  | .str a, .str b => a = b
  | .list a, .list b => VList.eqPy a b
  | .dict a, .dict b => a.length = b.length && VDict.sub a b
  | _, _ => false

/-- Elementwise Python equality of lists. -/
def VList.eqPy : VList → VList → Bool
  | .nil, .nil => true
  | .cons a t, .cons b u => V.eqPy a b && VList.eqPy t u
  | _, _ => false

/-- Every entry of the first dict is matched (by Python equality) in the second. -/
def VDict.sub : VDict → VDict → Bool
  | .nil, _ => true
  | .cons k v t, d =>
    (match d.get k with
     | some w => V.eqPy v w
     | none => false) && VDict.sub t d

end

/-- Python `repr` of a string, single quotes (escaping not modelled). -/
def pyReprStr (s : String) : String := "'" ++ s ++ "'"

mutual

/-- Python `str(v)` (container `repr` modelled without escaping). -/
def V.strPy : V → String
  | .null => "None"
  | .bool b => if b then "True" else "False"
  | .int n => toString n
  | .str s => s
  | .list xs => "[" ++ VList.strPy xs ++ "]"
  | .dict kvs => "\x7b" ++ VDict.strPy kvs ++ "\x7d"

/-- Comma-separated `repr` forms of list elements. -/
def VList.strPy : VList → String
  | .nil => ""
  | .cons v .nil => V.reprPy v
  | .cons v t => V.reprPy v ++ ", " ++ VList.strPy t

/-- Comma-separated `repr` forms of dict entries. -/
def VDict.strPy : VDict → String
  | .nil => ""
  | .cons k v .nil => pyReprStr k ++ ": " ++ V.reprPy v
  | .cons k v t => pyReprStr k ++ ": " ++ V.reprPy v ++ ", " ++ VDict.strPy t

/-- Python `repr(v)` as used for elements inside container `str` forms. -/
def V.reprPy : V → String
  | .str s => pyReprStr s
  | .null => "None"
  | .bool b => if b then "True" else "False"
  | .int n => toString n
  | .list xs => "[" ++ VList.strPy xs ++ "]"
  | .dict kvs => "\x7b" ++ VDict.strPy kvs ++ "\x7d"

end

/-- Python `float(v)` restricted to integral results: `int` and `bool`
convert, everything else raises (`none`).  Non-integral floats are outside
the model. -/
def V.toFloatInt : V → Option Int
  | .int n => some n
  | .bool b => some (if b then 1 else 0)
  | _ => none

/-- Python `int(s)` on a trimmed literal: optional sign then digits. -/
def pyParseInt (s : String) : Option Int :=
  match s.data with
  | [] => none
  | '-' :: ds => (digits ds).map (fun n => -(n : Int))
  | '+' :: ds => (digits ds).map (fun n => (n : Int))
  | ds => (digits ds).map (fun n => (n : Int))
where
  /-- Parse a nonempty all-digit run. -/
  digits (ds : List Char) : Option Nat :=
    if ds = [] then none
    else go ds 0
  /-- Accumulate decimal digits, failing on a non-digit. -/
  go : List Char → Nat → Option Nat
    | [], acc => some acc
    | c :: t, acc => if c.isDigit then go t (acc * 10 + (c.toNat - '0'.toNat)) else none

/-! ### Python string ordering

Python compares strings lexicographically by code point; this is the
order used by `list.sort()` in the dependency graph. -/

/-- Lexicographic code-point `<` on character lists. -/
def pyStrLtL : List Char → List Char → Bool
  | [], [] => false
  | [], _ :: _ => true
  | _ :: _, [] => false
  | a :: as, b :: bs => if a = b then pyStrLtL as bs else decide (a.toNat < b.toNat)

/-- Python string `<`. -/
def pyStrLt (a b : String) : Bool := pyStrLtL a.data b.data

/-- Python string `<=` (complement of the reversed strict order). -/
def pyStrLe (a b : String) : Bool := !(pyStrLt b a)

/-! ## Dependency graph (`dependency_graph.py`)

The graph is the `_nodes`/`_edges`/`_reverse_edges` state of class
`DependencyGraph` after `add_steps(steps)`: step names in insertion order,
each with its declared `depends_on` list.  The parser guarantees unique
step names; theorems assume `names.Nodup` where it matters.  Python `set`
valued fields (`_edges[n]`, `_reverse_edges[n]`) are modelled as
duplicate-free lists; their iteration order is unspecified in Python, and
the modelled order is declaration order. -/

structure DepGraph where
  nodes : List (String × List String)
deriving DecidableEq

/-- Node names in `_nodes` insertion order. -/
def DepGraph.names (g : DepGraph) : List String := g.nodes.map Prod.fst

/-- The declared `depends_on` list of a node (empty for unknown names). -/
def DepGraph.depends_on (g : DepGraph) (n : String) : List String :=
  match g.nodes.find? (fun p => p.1 = n) with
  | some p => p.2
  | none => []

/-- The `_edges[n]` dependency set, as a duplicate-free list. -/
def DepGraph.edges (g : DepGraph) (n : String) : List String :=
  (g.depends_on n).dedup

/-- The `_reverse_edges[d]` dependent set: node names whose `depends_on`
mentions `d`. -/
def DepGraph.dependents (g : DepGraph) (d : String) : List String :=
  g.names.filter (fun n => decide (d ∈ g.depends_on n))

/-- Dependencies of `n` that are themselves nodes (the ones Kahn's
algorithm counts: `if dep in self._nodes`). -/
def DepGraph.inEdges (g : DepGraph) (n : String) : List String :=
  (g.edges n).filter (fun d => decide (d ∈ g.names))

/-- Initial Kahn in-degree of a node. -/
def DepGraph.in_degree0 (g : DepGraph) (n : String) : Int :=
  ((g.inEdges n).length : Int)

/-- Validation errors raised by `DependencyGraph.validate`. -/
inductive GraphErr where
  | depNotFound (step dep : String)
  | circular (cycle : List String)
deriving DecidableEq

/-- The missing-dependency scan of `validate` (first offender, if any). -/
def DepGraph.find_missing (g : DepGraph) : Option (String × String) :=
  go g.nodes
where
  /-- Scan nodes in insertion order for a dependency that is not a node. -/
  go : List (String × List String) → Option (String × String)
    | [] => none
    | (n, _) :: rest =>
      match (DepGraph.edges g n).find? (fun d => decide (d ∉ g.names)) with
      | some d => some (n, d)
      | none => go rest

/-- Pointwise update of a colour map. -/
def updColor (f : String → Nat) (k : String) (v : Nat) : String → Nat :=
  fun x => if x = k then v else f x

mutual

/-- The recursive `dfs(node, path)` of `_detect_cycle`: colour `node` GRAY
(1), push it on the path, scan its dependencies, then colour it BLACK (2).
Fuel decreases on every call; `detect_cycle` supplies more fuel than the
total number of calls the Python recursion can make, so the fuel-exhausted
branch (which reports no cycle) is never reached. -/
def DepGraph.dfsVisit (g : DepGraph) :
    Nat → String → List String → (String → Nat) → Option (List String) × (String → Nat)
  | 0, _, _, color => (none, color)
  | fuel + 1, node, path, color =>
    let c1 := updColor color node 1
    let p1 := path ++ [node]
    match DepGraph.dfsScan g fuel (g.edges node) p1 c1 with
    | (some cyc, c2) => (some cyc, c2)
    | (none, c2) => (none, updColor c2 node 2)

/-- The `for dep in self._edges.get(node, set())` loop body of `dfs`. -/
def DepGraph.dfsScan (g : DepGraph) :
    Nat → List String → List String → (String → Nat) → Option (List String) × (String → Nat)
  | 0, _, _, color => (none, color)
  | fuel + 1, deps, path, color =>
    match deps with
    | [] => (none, color)
    | d :: rest =>
      if d ∉ g.names then DepGraph.dfsScan g fuel rest path color
      else if color d = 1 then
        (some (path.drop (path.indexOf d) ++ [d]), color)
      else if color d = 0 then
        match DepGraph.dfsVisit g fuel d path color with
        | (some cyc, c2) => (some cyc, c2)
        | (none, c2) => DepGraph.dfsScan g fuel rest path c2
      else DepGraph.dfsScan g fuel rest path color

end


/-- Total number of calls the DFS can make, plus slack: used as fuel. -/
def DepGraph.dfsFuel (g : DepGraph) : Nat :=
  (g.nodes.length + 1) * (2 + g.nodes.length + (g.nodes.map (fun p => p.2.length)).sum)

/-- The `_detect_cycle` top-level loop over all nodes, visiting each
still-WHITE node. -/
def DepGraph.detect_cycle (g : DepGraph) : Option (List String) :=
  go g.names (fun _ => 0)
where
  /-- Iterate roots in `_nodes` order, threading the colour map. -/
  go : List String → (String → Nat) → Option (List String)
    | [], _ => none
    | n :: rest, color =>
      if color n = 0 then
        match g.dfsVisit (g.dfsFuel) n [] color with
        | (some cyc, _) => some cyc
        | (none, c2) => go rest c2
      else go rest color

/-- `DependencyGraph.validate`: missing-dependency scan, then cycle scan. -/
def DepGraph.validate (g : DepGraph) : Except GraphErr Unit :=
  match g.find_missing with
  | some (s, d) => .error (.depNotFound s d)
  | none =>
    match g.detect_cycle with
    | some cyc => .error (.circular cyc)
    | none => .ok ()

/-- The `for dependent in self._reverse_edges.get(node, set())` loop of
Kahn's algorithm: decrement each dependent's in-degree (if it is tracked)
and collect, in scan order, the dependents whose degree just became 0. -/
def dec_dependents (names : List String) :
    (String → Int) → List String → ((String → Int) × List String)
  | deg, [] => (deg, [])
  | deg, d :: rest =>
    if d ∈ names then
      let deg2 := fun k => if k = d then deg k - 1 else deg k
      let res := dec_dependents names deg2 rest
      if deg2 d = 0 then (res.1, d :: res.2) else (res.1, res.2)
    else dec_dependents names deg rest

/-- One-step-per-fuel rendering of the `while queue:` loop of
`_topological_sort`: sort the queue ascending, pop the head, append it to
the result, then decrement its dependents.  `topological_sort` supplies
fuel that provably exceeds the number of iterations, so the fuel-exhausted
branch is never reached on the states the algorithm builds. -/
def kahnAux (g : DepGraph) :
    Nat → (String → Int) → List String → List String → List String
  | 0, _, _, result => result
  | fuel + 1, deg, queue, result =>
    match List.insertionSort (fun a b => pyStrLe a b = true) queue with
    | [] => result
    | node :: rest =>
      let res := dec_dependents g.names deg (g.dependents node)
      kahnAux g fuel res.1 (rest ++ res.2) (result ++ [node])

/-- `DependencyGraph._topological_sort` (Kahn's algorithm with the
ascending-name tie-break). -/
def DepGraph.topological_sort (g : DepGraph) : List String :=
  kahnAux g
    (g.nodes.length + (g.nodes.map (fun p => p.2.length)).sum + 1)
    g.in_degree0
    (g.names.filter (fun n => decide (g.in_degree0 n = 0)))
    []

/-- `DependencyGraph.get_execution_order`: validate, then sort. -/
def DepGraph.get_execution_order (g : DepGraph) : Except GraphErr (List String) :=
  match g.validate with
  | .error e => .error e
  | .ok _ => .ok g.topological_sort

/-- The relation "step `a` directly depends on step `b`" inside a graph
(only edges between tracked nodes). -/
def DepGraph.dependsOnRel (g : DepGraph) (a b : String) : Prop :=
  a ∈ g.names ∧ b ∈ g.names ∧ b ∈ g.depends_on a

/-- Acyclicity witnessed by a rank function that strictly decreases along
dependency edges. -/
def DepGraph.RankAcyclic (g : DepGraph) (rank : String → Nat) : Prop :=
  ∀ n ∈ g.names, ∀ d ∈ g.depends_on n, d ∈ g.names → rank d < rank n

/-- The concrete two-step cyclic graph `{A: depends_on [B], B: depends_on [A]}`. -/
def cycleGraphAB : DepGraph := ⟨[("A", ["B"]), ("B", ["A"])]⟩


/-- Loop invariant of `kahnAux` relating the in-degree map, the queue and
the result prefix. -/
structure KInv (g : DepGraph) (deg : String → Int) (queue result : List String) : Prop where
  deg_eq : ∀ n ∈ g.names,
    deg n = (((g.inEdges n).filter (fun d => decide (d ∉ result))).length : Int)
  res_nodup : result.Nodup
  res_sub : ∀ r ∈ result, r ∈ g.names
  q_nodup : queue.Nodup
  q_mem : ∀ q ∈ queue, q ∈ g.names ∧ q ∉ result
  ready_iff : ∀ n ∈ g.names,
    (n ∈ queue ↔ (n ∉ result ∧ ∀ d ∈ g.inEdges n, d ∈ result))
  prec : ∀ i (hi : i < result.length),
    ∀ d ∈ g.inEdges (result.get ⟨i, hi⟩), d ∈ result.take i

/-- Termination measure of the Kahn loop: queue length plus the number of
unsatisfied in-node dependency edges. -/
def kMeasure (g : DepGraph) (queue result : List String) : Nat :=
  queue.length +
    (g.names.map
      (fun n => ((g.inEdges n).filter (fun d => decide (d ∉ result))).length)).sum

/-- Ascending-name tie-break property: from position `k` on, every emitted
step name is `<=` (Python string order) every step that was ready and not
yet emitted at that point. -/
def MinFrom (g : DepGraph) (k : Nat) (out : List String) : Prop :=
  ∀ j, k ≤ j → ∀ (hj : j < out.length), ∀ m ∈ g.names, m ∉ out.take j →
    (∀ d ∈ g.inEdges m, d ∈ out.take j) → pyStrLe (out.get ⟨j, hj⟩) m = true


/-! ## Workflow executor (`executor.py`, result models from `models.py`)

`_execute_step` (condition evaluation, request building, HTTP transport,
validation, extraction, loops, polls) is abstracted as a step-runner
oracle `WorkflowStep → StepResult`: it catches every exception itself and
always returns a `StepResult`, so the `execute` control flow modelled here
is exact.  The only exception that can escape inside `execute`'s `try` is
the one raised by `get_execution_order` (missing dependency or cycle),
which the `except` block converts to an ERRORED result; the `finally`
block only closes the HTTP client. -/

/-- `FailureAction` from `models.py` (`cont` is `CONTINUE`). -/
inductive FailureAction where
  | abort
  | cont
  | retry
deriving DecidableEq

/-- `StepStatus` from `models.py`. -/
inductive StepStatus where
  | pending
  | running
  | passed
  | failed
  | skipped
  | errored
deriving DecidableEq

/-- The fields of `WorkflowStep` that `execute`'s control flow consults;
the remaining fields (`endpoint`, `request`, `expect`, `extract`,
`condition`, `loop`, `poll`, `variables`, ...) are consumed inside the
oracle-modelled `_execute_step`. -/
structure WorkflowStep where
  name : String
  depends_on : List String
  on_failure : FailureAction
  ignore_failure : Bool
deriving DecidableEq

/-- The fields of `StepResult` that `execute` reads or writes: identity,
final status and error text (set by `finish`), and extracted data. -/
structure StepResult where
  step_name : String
  status : StepStatus
  error_message : Option String
  extracted_data : List (String × V)
deriving DecidableEq

/-- The fields of `WorkflowResult` that determine the final status. -/
structure WorkflowResult where
  workflow_name : String
  status : StepStatus
  setup_results : List StepResult
  step_results : List StepResult
  teardown_results : List StepResult
  error_message : Option String
deriving DecidableEq

/-- `WorkflowResult.failed_steps`: number of FAILED results across the
setup, main and teardown lists combined. -/
def WorkflowResult.failed_steps (r : WorkflowResult) : Nat :=
  ((r.setup_results ++ r.step_results ++ r.teardown_results).filter
    (fun s => decide (s.status = StepStatus.failed))).length

/-- A workflow: three step phases (name-unique steps; variables and
settings live inside the oracle). -/
structure Workflow where
  name : String
  setup : List WorkflowStep
  steps : List WorkflowStep
  teardown : List WorkflowStep

/-- The dependency graph `execute` builds from the main steps. -/
def Workflow.graph (wf : Workflow) : DepGraph :=
  ⟨wf.steps.map (fun s => (s.name, s.depends_on))⟩

/-- `graph.get_step(name)` on that graph (step names are unique). -/
def Workflow.get_step (wf : Workflow) (n : String) : Option WorkflowStep :=
  wf.steps.find? (fun s => decide (s.name = n))

/-- `str(e)` of the two validation exceptions (`errors.py` formats them
with the `[workflow] message` prefix). -/
def GraphErr.strPy (wf_name : String) : GraphErr → String
  | .depNotFound s d =>
    "[" ++ wf_name ++ "] Step '" ++ s ++ "' depends on unknown step '" ++ d ++ "'"
  | .circular cyc =>
    "[" ++ wf_name ++ "] Circular dependency detected: " ++ String.intercalate " -> " cyc

/-- The setup loop of `execute`: run steps in declared order, stop at the
first FAILED result whose step does not set `ignore_failure`.  Returns
the accumulated results, the trace of executed step names, and the
early-abort message if any. -/
def runSetup (runner : WorkflowStep → StepResult) :
    List WorkflowStep → List StepResult × List String × Option String
  | [] => ([], [], none)
  | step :: rest =>
    let r := runner step
    if r.status = StepStatus.failed ∧ ¬ step.ignore_failure = true then
      ([r], [step.name], some ("Setup step '" ++ step.name ++ "' failed"))
    else
      let res := runSetup runner rest
      (r :: res.1, step.name :: res.2.1, res.2.2)

/-- State threaded through the main-phase loop of `execute`. -/
structure MainState where
  results : List StepResult
  trace : List String
  completed : List String
  abort : Bool
  error_message : Option String
deriving DecidableEq

/-- The main-phase loop of `execute` over the computed execution order:
once `abort` is latched every remaining (existing) step is recorded as
SKIPPED with reason "Skipped due to previous failure" and is not
executed; a PASSED step joins `completed`; a FAILED step latches `abort`
when `on_failure == ABORT` and not `ignore_failure`, or joins `completed`
when `ignore_failure`. -/
def runMain (wf : Workflow) (runner : WorkflowStep → StepResult) :
    List String → MainState → MainState
  | [], st => st
  | step_name :: rest, st =>
    if st.abort then
      match wf.get_step step_name with
      | some _ =>
        runMain wf runner rest
          { st with results := st.results ++
              [{ step_name := step_name, status := StepStatus.skipped,
                 error_message := some "Skipped due to previous failure",
                 extracted_data := [] }] }
      | none => runMain wf runner rest st
    else
      match wf.get_step step_name with
      | none => runMain wf runner rest st
      | some step =>
        let r := runner step
        let st2 := { st with results := st.results ++ [r],
                             trace := st.trace ++ [step.name] }
        if r.status = StepStatus.passed then
          runMain wf runner rest { st2 with completed := st2.completed ++ [step_name] }
        else if r.status = StepStatus.failed then
          if step.on_failure = FailureAction.abort ∧ ¬ step.ignore_failure = true then
            runMain wf runner rest
              { st2 with abort := true,
                         error_message := some ("Step '" ++ step_name ++ "' failed") }
          else if step.ignore_failure = true then
            runMain wf runner rest { st2 with completed := st2.completed ++ [step_name] }
          else
            runMain wf runner rest st2
        else
          runMain wf runner rest st2

/-- The teardown loop of `execute`: every teardown step is executed and
its result appended, unconditionally. -/
def runTeardown (runner : WorkflowStep → StepResult) :
    List WorkflowStep → List StepResult × List String
  | [] => ([], [])
  | step :: rest =>
    let r := runner step
    let res := runTeardown runner rest
    (r :: res.1, step.name :: res.2)

/-- The status-determination block at the end of `execute` (lines
149-156 of `executor.py`): FAILED if abort was latched or any FAILED
result exists across all three phase lists, else PASSED. -/
def finish_result (wf : Workflow) (su : List StepResult × List String × Option String)
    (ms : MainState) (td : List StepResult × List String) :
    WorkflowResult × List String :=
  let res : WorkflowResult :=
    { workflow_name := wf.name, status := StepStatus.pending,
      setup_results := su.1, step_results := ms.results,
      teardown_results := td.1, error_message := ms.error_message }
  if ms.abort = true ∨ 0 < res.failed_steps then
    ({ res with status := StepStatus.failed }, su.2.1 ++ ms.trace ++ td.2)
  else
    ({ res with status := StepStatus.passed, error_message := none },
      su.2.1 ++ ms.trace ++ td.2)

/-- `WorkflowExecutor.execute` with `_execute_step` as the oracle
`runner`.  Returns the finished `WorkflowResult` together with the trace
of step names passed to `_execute_step`, in invocation order. -/
def execute (runner : WorkflowStep → StepResult) (wf : Workflow) :
    WorkflowResult × List String :=
  let su := runSetup runner wf.setup
  match su.2.2 with
  | some msg =>
    ({ workflow_name := wf.name, status := StepStatus.failed, setup_results := su.1,
       step_results := [], teardown_results := [], error_message := some msg }, su.2.1)
  | none =>
    match wf.graph.get_execution_order with
    | .error e =>
      ({ workflow_name := wf.name, status := StepStatus.errored, setup_results := su.1,
         step_results := [], teardown_results := [],
         error_message := some (e.strPy wf.name) }, su.2.1)
    | .ok order =>
      finish_result wf su (runMain wf runner order ⟨[], [], [], false, none⟩)
        (runTeardown runner wf.teardown)


/-! ### Loop execution (`_execute_loop`, fixed-count branch)

Each iteration re-runs `_execute_request` on the same `StepResult`
object; the oracle `runner i` gives iteration `i`'s outcome.
`updates_extract = some kvs` models the validation-passing path that
assigns `result.extracted_data = kvs`; `none` models the paths that leave
the field untouched (so a failing iteration re-appends the previous
iteration's extraction, as in the source).  `untilB` is `some f` when
`loop.until` is set; `f i` is the truthiness of the `until` expression
after iteration `i`, with an evaluation exception counting as not-truthy
(`except: pass`).  The inter-iteration `time.sleep` only delays. -/

/-- Outcome of one in-loop `_execute_request` call. -/
structure IterOutcome where
  status : StepStatus
  updates_extract : Option (List (String × V))
  error_message : Option String

/-- `for key, value in iter_result.extracted_data.items():
collected_values[key].append(value)`; `none` models the `KeyError` on an
untracked key (it would escape to `_execute_step`'s handler as ERRORED). -/
def collectInto : List (String × List V) → List (String × V) → Option (List (String × List V))
  | collected, [] => some collected
  | collected, (k, v) :: rest =>
    if (collected.lookup k).isSome then
      collectInto (collected.map (fun p => if p.1 = k then (p.1, p.2 ++ [v]) else p)) rest
    else none

/-- The post-loop block: store the per-key collected lists as the step's
extracted data and finish PASSED. -/
def loopFinish (name : String) (collected : List (String × List V)) : StepResult :=
  { step_name := name, status := StepStatus.passed, error_message := none,
    extracted_data := collected.map (fun p => (p.1, V.list (VList.ofList p.2))) }

/-- The `for i in range(loop.count)` loop with `remaining` iterations
left, next loop index `i`, the collected lists so far and the current
`result.extracted_data`. -/
def execute_loop_count (name : String) (runner : Nat → IterOutcome)
    (untilB : Option (Nat → Bool)) :
    Nat → Nat → List (String × List V) → List (String × V) → Option StepResult
  | 0, _, collected, _ => some (loopFinish name collected)
  | remaining + 1, i, collected, cur =>
    let out := runner i
    let cur2 := match out.updates_extract with
      | some kvs => kvs
      | none => cur
    match collectInto collected cur2 with
    | none => none
    | some collected2 =>
      if out.status = StepStatus.failed then
        match untilB with
        | some f =>
          if f i then some (loopFinish name collected2)
          else some { step_name := name, status := StepStatus.failed,
                      error_message := out.error_message, extracted_data := cur2 }
        | none =>
          some { step_name := name, status := StepStatus.failed,
                 error_message := out.error_message, extracted_data := cur2 }
      else
        match untilB with
        | some f =>
          if f i then some (loopFinish name collected2)
          else execute_loop_count name runner untilB remaining (i + 1) collected2 cur2
        | none => execute_loop_count name runner untilB remaining (i + 1) collected2 cur2

/-- `_execute_loop` for `loop.count = count`, with
`collected_values = {key: [] for key in step.extract.keys()}`. -/
def execute_loop_fixed (name : String) (runner : Nat → IterOutcome)
    (untilB : Option (Nat → Bool)) (count : Nat) (extract_keys : List String) :
    Option StepResult :=
  execute_loop_count name runner untilB count 0 (extract_keys.map (fun k => (k, []))) []

/-! ### Concrete workflows used by the executor claims -/

/-- A single teardown step. -/
def stepT : WorkflowStep := ⟨"t", [], FailureAction.abort, false⟩

/-- A single dependency-free main step. -/
def stepA1 : WorkflowStep := ⟨"a", [], FailureAction.abort, false⟩

/-- A single setup step (failure not ignored). -/
def stepS : WorkflowStep := ⟨"s", [], FailureAction.abort, false⟩

/-- Workflow for the C1 counterexample: one passing main step, one
teardown step. -/
def wfC1 : Workflow := ⟨"w", [], [stepA1], [stepT]⟩

/-- Runner for the C1 counterexample: main step passes, teardown fails. -/
def runnerC1 : WorkflowStep → StepResult :=
  fun s => if s.name = "a" then ⟨"a", StepStatus.passed, none, []⟩
    else ⟨s.name, StepStatus.failed, some "cleanup failed", []⟩

/-- Workflow for the C2 counterexample: one failing setup step, one
teardown step. -/
def wfC2 : Workflow := ⟨"w", [stepS], [], [stepT]⟩

/-- Runner for the C2 counterexample: every step fails. -/
def runnerC2 : WorkflowStep → StepResult :=
  fun s => ⟨s.name, StepStatus.failed, some "boom", []⟩

/-- C7 main steps: `A`, `B` depends on `A`, `C` depends on `B`. -/
def stepA7 : WorkflowStep := ⟨"A", [], FailureAction.abort, false⟩

/-- C7 middle step, `on_failure = abort`, `ignore_failure = false`. -/
def stepB7 : WorkflowStep := ⟨"B", ["A"], FailureAction.abort, false⟩

/-- C7 last step, depending on the aborting step. -/
def stepC7 : WorkflowStep := ⟨"C", ["B"], FailureAction.abort, false⟩

/-- The three-step chain workflow of C7. -/
def wfC7 : Workflow := ⟨"w", [], [stepA7, stepB7, stepC7], []⟩

/-! ## Response validator (`validator.py`)

`ResponseValidator._validate_value` and its helpers, over the `V` model.
Numeric conversions (`float(...)`) are restricted to integral results via
`V.toFloatInt`/`V.toFloatFull`; non-integral floats are outside the model.
The `re.match` calls of the `$\x7bregex:...\x7d` / `"$regex"` branches are
an oracle parameter (`ReOracle`), as their outcome depends on a regex
engine the claims never exercise.  All strings handled here are ASCII, so
Python's `str.lower`, `str.isalnum` and `\w` coincide with the ASCII
versions used below. -/

/-- Python `str.lower()` (ASCII case folding). -/
def pyLower (s : String) : String := String.mk (s.data.map Char.toLower)

/-- `\w` of Python `re` on ASCII: letters, digits, underscore. -/
def isWordChar (c : Char) : Bool := c.isAlphanum || c = '_'

/-- Strip a literal pattern head from a character list (`none` when the
list does not start with it). -/
def stripHead : List Char → List Char → Option (List Char)
  | [], l => some l
  | _ :: _, [] => none
  | p :: ps, c :: cs => if c = p then stripHead ps cs else none

/-- Longest leading run of `\w` characters, with the remainder. -/
def takeWordRun : List Char → List Char × List Char
  | [] => ([], [])
  | c :: cs =>
    if isWordChar c then
      match takeWordRun cs with
      | (w, r) => (c :: w, r)
    else ([], c :: cs)

/-- `re.match` of an anchored pattern `head(\w+)\x7d$` against `s` (the
`$\x7btype:(\w+)\x7d` and `$\x7bextract:(\w+)\x7d` shapes): the whole
string is the head, one or more word characters, a closing brace. -/
def matchWordForm (head : String) (s : String) : Option String :=
  match stripHead head.data s.data with
  | none => none
  | some rest => go rest []
where
  /-- Consume word characters, then require exactly `\x7d` at the end. -/
  go : List Char → List Char → Option String
    | [], _ => none
    | c :: cs, acc =>
      if c = '\x7d' then
        if cs = [] ∧ acc ≠ [] then some (String.mk acc.reverse) else none
      else if isWordChar c then go cs (c :: acc)
      else none

/-- `re.match` of an anchored pattern `head(.+)\x7d$` against `s`: the
greedy group is everything between the head and the final character,
which must be `\x7d`; the group is nonempty and may itself contain
braces.  (Strings handled here contain no newline, so `.` is any
character.) -/
def matchDotForm (head : String) (s : String) : Option String :=
  match stripHead head.data s.data with
  | none => none
  | some rest =>
    match rest.reverse with
    | [] => none
    | c :: midrev =>
      if c = '\x7d' then
        if midrev = [] then none else some (String.mk midrev.reverse)
      else none

/-- Split at the last comma that leaves a nonempty right part (the
backtracking split of the greedy `(.+),(.+)` group pair); `none` when no
such comma exists. -/
def splitGreedyComma : List Char → Option (List Char × List Char)
  | [] => none
  | c :: cs =>
    match splitGreedyComma cs with
    | some (a, b) => some (c :: a, b)
    | none => if c = ',' ∧ cs ≠ [] then some ([], cs) else none

/-- `re.match(r"^\$\x7bbetween:(.+),(.+)\x7d$", s)`: both groups nonempty,
the separating comma the last one admitting a nonempty second group. -/
def matchBetweenForm (s : String) : Option (String × String) :=
  match matchDotForm "$\x7bbetween:" s with
  | none => none
  | some mid =>
    match splitGreedyComma mid.data with
    | none => none
    | some (a, b) => if a = [] then none else some (String.mk a, String.mk b)

/-- `needle in haystack` on character lists (Python substring test). -/
def strContainsL (needle : List Char) : List Char → Bool
  | [] => needle.isEmpty
  | c :: cs => needle.isPrefixOf (c :: cs) || strContainsL needle cs

/-- Python `needle in hay` for strings. -/
def strContains (hay needle : String) : Bool := strContainsL needle.data hay.data

/-- Python `float(v)` restricted to integral results, including numeric
strings (`float("3")`); everything else raises (`none`). -/
def V.toFloatFull : V → Option Int
  | .int n => some n
  | .bool b => some (if b then 1 else 0)
  | .str s => pyParseInt s
  | _ => none

/-- `_check_type`: the `type_map` lookup followed by `isinstance`.  Python
`bool` is a subclass of `int`, so `True`/`False` match `"integer"` and
`"number"` as well as `"boolean"`, while `int` values do not match
`"boolean"`; non-integral floats are outside the model, so `"float"`
matches no modelled value; an unknown type name yields `False`. -/
def check_type (v : V) (t : String) : Bool :=
  if t = "string" then (match v with | .str _ => true | _ => false)
  else if t = "number" then (match v with | .int _ => true | .bool _ => true | _ => false)
  else if t = "integer" then (match v with | .int _ => true | .bool _ => true | _ => false)
  else if t = "float" then false
  else if t = "boolean" then (match v with | .bool _ => true | _ => false)
  else if t = "array" then (match v with | .list _ => true | _ => false)
  else if t = "object" then (match v with | .dict _ => true | _ => false)
  else if t = "null" then (match v with | .null => true | _ => false)
  else false

/-- Oracle for the guarded `re.match(pattern, str(actual))` calls of the
regex branches: the whole `try` block's boolean, `re.error` absorbed as
`False`. -/
structure ReOracle where
  rmatch : String → String → Bool

/-- The shared shape of the numeric comparison branches:
`actual is not None and float(actual) CMP float(threshold)`, every raised
`ValueError`/`TypeError` giving `False`. -/
def numCmp (a : V) (thr : Option Int) (cmp : Int → Int → Bool) : Bool :=
  match thr with
  | none => false
  | some t =>
    match a with
    | V.null => false
    | _ =>
      match a.toFloatFull with
      | some x => cmp x t
      | none => false

/-- `_validate_string_expectation`: the `$\x7b...\x7d` string forms tried
in source order, then the generic variable-reference comparison, then
direct equality. -/
def validate_string_expectation (re : ReOracle) (a : V) (e : String) : Bool :=
  match matchWordForm "$\x7btype:" e with
  | some t => check_type a t
  | none =>
  match matchDotForm "$\x7bregex:" e with
  | some p => (match a with | V.null => false | _ => re.rmatch p (V.strPy a))
  | none =>
  match matchDotForm "$\x7bgte:" e with
  | some g => numCmp a (pyParseInt g) (fun x t => decide (t ≤ x))
  | none =>
  match matchDotForm "$\x7blte:" e with
  | some g => numCmp a (pyParseInt g) (fun x t => decide (x ≤ t))
  | none =>
  match matchDotForm "$\x7bgt:" e with
  | some g => numCmp a (pyParseInt g) (fun x t => decide (t < x))
  | none =>
  match matchDotForm "$\x7blt:" e with
  | some g => numCmp a (pyParseInt g) (fun x t => decide (x < t))
  | none =>
  match matchBetweenForm e with
  | some (lo, hi) =>
    (match pyParseInt lo, pyParseInt hi with
     | some l, some h =>
       numCmp a (some l) (fun x t => decide (t ≤ x)) &&
       numCmp a (some h) (fun x t => decide (x ≤ t))
     | _, _ => false)
  | none =>
  match matchDotForm "$\x7bcontains:" e with
  | some sv =>
    (match a with
     | V.str hay => strContains hay sv
     | V.list xs =>
       xs.toList.any (fun item => V.eqPy (V.str sv) item) ||
       xs.toList.any (fun item => strContains item.strPy sv)
     | _ => false)
  | none =>
  match matchWordForm "$\x7bextract:" e with
  | some _ => true
  | none =>
  match e.data with
  | '$' :: c2 :: rest =>
    if c2 == '\x7b' && (match (c2 :: rest).reverse with
        | c :: _ => c == '\x7d'
        | [] => false) then
      decide (V.strPy a = e)
    else V.eqPy a (V.str e)
  | _ => V.eqPy a (V.str e)

/-- The special-expectation key set of `_is_special_value`. -/
def specialKeys : List String :=
  ["__extract__", "$gte", "$lte", "$gt", "$lt", "$between", "$contains", "$type", "$regex"]

/-- `_is_special_value`: the dict holds at least one special key. -/
def is_special_value (d : VDict) : Bool := specialKeys.any (fun k => d.hasKey k)

/-- `_validate_special_value`: the `"$op"` dict forms tried in source
order. -/
def validate_special_value (re : ReOracle) (a : V) (e : VDict) : Bool :=
  if e.hasKey "__extract__" then true
  else if e.hasKey "$gte" then
    numCmp a ((e.get "$gte").bind V.toFloatFull) (fun x t => decide (t ≤ x))
  else if e.hasKey "$lte" then
    numCmp a ((e.get "$lte").bind V.toFloatFull) (fun x t => decide (x ≤ t))
  else if e.hasKey "$gt" then
    numCmp a ((e.get "$gt").bind V.toFloatFull) (fun x t => decide (t < x))
  else if e.hasKey "$lt" then
    numCmp a ((e.get "$lt").bind V.toFloatFull) (fun x t => decide (x < t))
  else if e.hasKey "$between" then
    (match e.get "$between" with
     | some (V.list (VList.cons mn (VList.cons mx VList.nil))) =>
       numCmp a (mn.toFloatFull) (fun x t => decide (t ≤ x)) &&
       numCmp a (mx.toFloatFull) (fun x t => decide (x ≤ t))
     | _ => false)
  else if e.hasKey "$contains" then
    (match e.get "$contains" with
     | some search =>
       (match a with
        | V.str hay => (match search with | V.str nd => strContains hay nd | _ => false)
        | V.list xs => xs.toList.any (fun item => V.eqPy search item)
        | _ => false)
     | none => false)
  else if e.hasKey "$type" then
    (match e.get "$type" with
     | some (V.str t) => check_type a t
     | _ => false)
  else if e.hasKey "$regex" then
    (match a with
     | V.null => false
     | _ =>
       match e.get "$regex" with
       | some (V.str p) => re.rmatch p (V.strPy a)
       | _ => false)
  else false

mutual

/-- `_validate_value(actual, expected)`: `None` expects `None`; a string
expectation goes through the special string syntax; a dict expectation is
either a special form or a recursive per-key check; a list expectation
requires a list of equal length validated elementwise; numbers and
booleans compare by Python `==`. -/
def validate_value (re : ReOracle) : V → V → Bool
  | a, V.null => (match a with | V.null => true | _ => false)
  | a, V.str e => validate_string_expectation re a e
  | a, V.dict ekvs =>
    if is_special_value ekvs then validate_special_value re a ekvs
    else
      (match a with
       | V.dict akvs => validate_dict_entries re akvs ekvs
       | _ => false)
  | a, V.list es =>
    (match a with
     | V.list as => (VList.length as == VList.length es) && validate_list_zip re as es
     | _ => false)
  | a, V.int n => V.eqPy a (V.int n)
  | a, V.bool b => V.eqPy a (V.bool b)

/-- The per-key loop of the regular-dict branch: every expected key
present in the actual dict with a validating value. -/
def validate_dict_entries (re : ReOracle) (akvs : VDict) : VDict → Bool
  | VDict.nil => true
  | VDict.cons k ev t =>
    (match akvs.get k with
     | some av => validate_value re av ev
     | none => false) && validate_dict_entries re akvs t

/-- `all(self._validate_value(a, e) for a, e in zip(actual, expected))`
(lengths already equal when called). -/
def validate_list_zip (re : ReOracle) : VList → VList → Bool
  | _, VList.nil => true
  | VList.nil, VList.cons _ _ => true
  | VList.cons a as, VList.cons e es => validate_value re a e && validate_list_zip re as es

end

/-- `response_headers.get(name) or response_headers.get(name.lower())`:
Python `or` falls through to the second lookup on a falsy left operand
(`None` from a missing key, or an empty-string value). -/
def header_lookup (headers : List (String × String)) (name : String) : Option String :=
  match headers.lookup name with
  | some v => if v = "" then headers.lookup (pyLower name) else some v
  | none => headers.lookup (pyLower name)

/-- One iteration of the header-expectation loop of `validate`: `true`
iff no `ExpectationError` is appended for this header. -/
def header_check (re : ReOracle) (headers : List (String × String)) (name : String)
    (expected : V) : Bool :=
  validate_value re
    (match header_lookup headers name with
     | some v => V.str v
     | none => V.null)
    expected

/-! ## Custom checks (`_evaluate_custom_check`)

The character guard and the guarded `eval` of
`ResponseValidator._evaluate_custom_check`, after the `response.*`
substitutions have been applied.  The `eval` model covers the fragment
the checks are written in: integer literals (floats are outside the
model), quoted strings without escapes (the guard admits no backslash),
names (a `NameError` with empty globals and stripped builtins), `or`,
`and`, `not`, comparisons including chains, `+ - *` on numbers and
strings, and parentheses.  `/` returns a Python float and is outside the
integral model; the conditional operator and the `in`/`is` comparisons
are outside the fragment; no claim exercises any of these.  Chained
comparisons are desugared into `and`s of pairwise comparisons: operands
of the fragment are effect-free except for a deterministic `NameError`,
so re-evaluating the shared middle operand is observationally identical. -/

/-- `allowed_chars = set("0123456789.+-*/<>=!() 'None\x22andor")`. -/
def allowedChars : List Char := "0123456789.+-*/<>=!() \x27None\x22andor".data

/-- Python `str.isalnum()` on the ASCII characters handled here. -/
def pyIsAlnum (c : Char) : Bool := c.isAlphanum

/-- `all(c in allowed_chars or c.isalnum() for c in expr)`. -/
def charGuardOk (expr : String) : Bool :=
  expr.data.all (fun c => allowedChars.contains c || pyIsAlnum c)

/-- Python `s * n` string repetition (nonpositive `n` gives `""`). -/
def strRepeat (s : String) (n : Int) : String :=
  String.mk (List.join (List.replicate n.toNat s.data))

/-- Tokens of the modelled `eval` fragment. -/
inductive Tok where
  | int (n : Nat)
  | str (s : String)
  | name (s : String)
  | op (s : String)
deriving DecidableEq

/-- Decimal value of a digit run. -/
def digitsToNat (ds : List Char) : Nat :=
  ds.foldl (fun acc c => acc * 10 + (c.toNat - '0'.toNat)) 0

/-- Characters up to the first closing quote, with the remainder after
it; `none` when unterminated (a `SyntaxError` in `eval`). -/
def spanTo (q : Char) : List Char → Option (List Char × List Char)
  | [] => none
  | c :: cs =>
    if c = q then some ([], cs)
    else (spanTo q cs).map (fun p => (c :: p.1, p.2))

/-- The tokenizer of the fragment; `none` is a lexical error (raised as
`SyntaxError`, hence `False`).  A digit run followed directly by a
letter (`1or`) is rejected, as in current CPython. -/
def tokenize : Nat → List Char → Option (List Tok)
  | 0, _ => none
  | _ + 1, [] => some []
  | fuel + 1, c :: cs =>
    if c = ' ' then tokenize fuel cs
    else if c.isDigit then
      match (c :: cs).dropWhile Char.isDigit with
      | '.' :: _ => none
      | d :: rest2 =>
        if d.isAlpha || d = '_' then none
        else (tokenize fuel (d :: rest2)).map
          (fun ts => Tok.int (digitsToNat ((c :: cs).takeWhile Char.isDigit)) :: ts)
      | [] =>
        (tokenize fuel []).map
          (fun ts => Tok.int (digitsToNat ((c :: cs).takeWhile Char.isDigit)) :: ts)
    else if c.isAlpha || c = '_' then
      (tokenize fuel ((c :: cs).dropWhile isWordChar)).map
        (fun ts => Tok.name (String.mk ((c :: cs).takeWhile isWordChar)) :: ts)
    else if c = '\x27' then
      match spanTo '\x27' cs with
      | some (lit, rest) => (tokenize fuel rest).map (fun ts => Tok.str (String.mk lit) :: ts)
      | none => none
    else if c = '\x22' then
      match spanTo '\x22' cs with
      | some (lit, rest) => (tokenize fuel rest).map (fun ts => Tok.str (String.mk lit) :: ts)
      | none => none
    else if c = '=' then
      match cs with
      | '=' :: rest => (tokenize fuel rest).map (fun ts => Tok.op "==" :: ts)
      | _ => none
    else if c = '!' then
      match cs with
      | '=' :: rest => (tokenize fuel rest).map (fun ts => Tok.op "!=" :: ts)
      | _ => none
    else if c = '<' then
      match cs with
      | '=' :: rest => (tokenize fuel rest).map (fun ts => Tok.op "<=" :: ts)
      | _ => (tokenize fuel cs).map (fun ts => Tok.op "<" :: ts)
    else if c = '>' then
      match cs with
      | '=' :: rest => (tokenize fuel rest).map (fun ts => Tok.op ">=" :: ts)
      | _ => (tokenize fuel cs).map (fun ts => Tok.op ">" :: ts)
    else if c = '+' then (tokenize fuel cs).map (fun ts => Tok.op "+" :: ts)
    else if c = '-' then (tokenize fuel cs).map (fun ts => Tok.op "-" :: ts)
    else if c = '*' then (tokenize fuel cs).map (fun ts => Tok.op "*" :: ts)
    else if c = '/' then (tokenize fuel cs).map (fun ts => Tok.op "/" :: ts)
    else if c = '(' then (tokenize fuel cs).map (fun ts => Tok.op "(" :: ts)
    else if c = ')' then (tokenize fuel cs).map (fun ts => Tok.op ")" :: ts)
    else none

/-- Abstract syntax of the fragment (comparison chains already desugared
by the parser). -/
inductive PyExpr where
  | lit (v : V)
  | nm (s : String)
  | orE (a b : PyExpr)
  | andE (a b : PyExpr)
  | notE (a : PyExpr)
  | cmpE (op : String) (a b : PyExpr)
  | arithE (op : String) (a b : PyExpr)
  | negE (a : PyExpr)
  | posE (a : PyExpr)

/-- A comparison-operator token's operator string. -/
def isCmpOp : Tok → Option String
  | Tok.op s =>
    if s = "==" || s = "!=" || s = "<" || s = ">" || s = "<=" || s = ">=" then some s
    else none
  | _ => none

mutual

/-- `or_test := and_test ("or" and_test)*`. -/
def parseOr : Nat → List Tok → Option (PyExpr × List Tok)
  | 0, _ => none
  | fuel + 1, ts =>
    match parseAnd fuel ts with
    | none => none
    | some (e, rest) => parseOrTail fuel e rest

/-- Left-associated `or` continuation. -/
def parseOrTail : Nat → PyExpr → List Tok → Option (PyExpr × List Tok)
  | 0, _, _ => none
  | fuel + 1, acc, ts =>
    match ts with
    | Tok.name "or" :: rest =>
      (match parseAnd fuel rest with
       | none => none
       | some (e, rest2) => parseOrTail fuel (PyExpr.orE acc e) rest2)
    | _ => some (acc, ts)

/-- `and_test := not_test ("and" not_test)*`. -/
def parseAnd : Nat → List Tok → Option (PyExpr × List Tok)
  | 0, _ => none
  | fuel + 1, ts =>
    match parseNot fuel ts with
    | none => none
    | some (e, rest) => parseAndTail fuel e rest

/-- Left-associated `and` continuation. -/
def parseAndTail : Nat → PyExpr → List Tok → Option (PyExpr × List Tok)
  | 0, _, _ => none
  | fuel + 1, acc, ts =>
    match ts with
    | Tok.name "and" :: rest =>
      (match parseNot fuel rest with
       | none => none
       | some (e, rest2) => parseAndTail fuel (PyExpr.andE acc e) rest2)
    | _ => some (acc, ts)

/-- `not_test := "not" not_test | comparison`. -/
def parseNot : Nat → List Tok → Option (PyExpr × List Tok)
  | 0, _ => none
  | fuel + 1, ts =>
    match ts with
    | Tok.name "not" :: rest =>
      (match parseNot fuel rest with
       | none => none
       | some (e, r) => some (PyExpr.notE e, r))
    | _ => parseCmp fuel ts

/-- `comparison := sum (cmpop sum)*`, chains desugared into `and`s. -/
def parseCmp : Nat → List Tok → Option (PyExpr × List Tok)
  | 0, _ => none
  | fuel + 1, ts =>
    match parseSum fuel ts with
    | none => none
    | some (e, rest) => parseCmpTail fuel e none rest

/-- Comparison continuation carrying the previous operand (`last`) and
the conjunction built so far. -/
def parseCmpTail : Nat → PyExpr → Option PyExpr → List Tok → Option (PyExpr × List Tok)
  | 0, _, _, _ => none
  | fuel + 1, last, acc, ts =>
    match ts with
    | t :: rest =>
      (match isCmpOp t with
       | some op =>
         (match parseSum fuel rest with
          | none => none
          | some (b, rest2) =>
            parseCmpTail fuel b
              (some (match acc with
                     | none => PyExpr.cmpE op last b
                     | some a => PyExpr.andE a (PyExpr.cmpE op last b)))
              rest2)
       | none => some ((match acc with | none => last | some a => a), t :: rest))
    | [] => some ((match acc with | none => last | some a => a), [])

/-- `sum := term (("+"|"-") term)*`. -/
def parseSum : Nat → List Tok → Option (PyExpr × List Tok)
  | 0, _ => none
  | fuel + 1, ts =>
    match parseTerm fuel ts with
    | none => none
    | some (e, rest) => parseSumTail fuel e rest

/-- Left-associated additive continuation. -/
def parseSumTail : Nat → PyExpr → List Tok → Option (PyExpr × List Tok)
  | 0, _, _ => none
  | fuel + 1, acc, ts =>
    match ts with
    | Tok.op "+" :: rest =>
      (match parseTerm fuel rest with
       | none => none
       | some (e, rest2) => parseSumTail fuel (PyExpr.arithE "+" acc e) rest2)
    | Tok.op "-" :: rest =>
      (match parseTerm fuel rest with
       | none => none
       | some (e, rest2) => parseSumTail fuel (PyExpr.arithE "-" acc e) rest2)
    | _ => some (acc, ts)

/-- `term := factor (("*"|"/") factor)*`. -/
def parseTerm : Nat → List Tok → Option (PyExpr × List Tok)
  | 0, _ => none
  | fuel + 1, ts =>
    match parseFactor fuel ts with
    | none => none
    | some (e, rest) => parseTermTail fuel e rest

/-- Left-associated multiplicative continuation. -/
def parseTermTail : Nat → PyExpr → List Tok → Option (PyExpr × List Tok)
  | 0, _, _ => none
  | fuel + 1, acc, ts =>
    match ts with
    | Tok.op "*" :: rest =>
      (match parseFactor fuel rest with
       | none => none
       | some (e, rest2) => parseTermTail fuel (PyExpr.arithE "*" acc e) rest2)
    | Tok.op "/" :: rest =>
      (match parseFactor fuel rest with
       | none => none
       | some (e, rest2) => parseTermTail fuel (PyExpr.arithE "/" acc e) rest2)
    | _ => some (acc, ts)

/-- `factor := ("+"|"-") factor | atom`. -/
def parseFactor : Nat → List Tok → Option (PyExpr × List Tok)
  | 0, _ => none
  | fuel + 1, ts =>
    match ts with
    | Tok.op "-" :: rest =>
      (match parseFactor fuel rest with
       | none => none
       | some (e, r) => some (PyExpr.negE e, r))
    | Tok.op "+" :: rest =>
      (match parseFactor fuel rest with
       | none => none
       | some (e, r) => some (PyExpr.posE e, r))
    | _ => parseAtom fuel ts

/-- `atom := INT | STR | None | True | False | NAME | "(" or_test ")"`;
a keyword in atom position is a `SyntaxError`. -/
def parseAtom : Nat → List Tok → Option (PyExpr × List Tok)
  | 0, _ => none
  | fuel + 1, ts =>
    match ts with
    | Tok.int n :: rest => some (PyExpr.lit (V.int n), rest)
    | Tok.str s :: rest => some (PyExpr.lit (V.str s), rest)
    | Tok.name s :: rest =>
      if s = "None" then some (PyExpr.lit V.null, rest)
      else if s = "True" then some (PyExpr.lit (V.bool true), rest)
      else if s = "False" then some (PyExpr.lit (V.bool false), rest)
      else if s = "or" || s = "and" || s = "not" then none
      else some (PyExpr.nm s, rest)
    | Tok.op "(" :: rest =>
      (match parseOr fuel rest with
       | some (e, Tok.op ")" :: r2) => some (e, r2)
       | _ => none)
    | _ => none

end

/-- Arithmetic on Python values: `+`/`-`/`*` on numbers (booleans count
as their integer values), `+` concatenation and `*` repetition on
strings; `/` returns a float and is outside the integral model
(exercised by no claim); everything else is a `TypeError` (`none`). -/
def pyArith (op : String) (x y : V) : Option V :=
  if op = "+" then
    match x.toFloatInt, y.toFloatInt with
    | some a, some b => some (V.int (a + b))
    | _, _ =>
      match x, y with
      | V.str a, V.str b => some (V.str (a ++ b))
      | _, _ => none
  else if op = "-" then
    match x.toFloatInt, y.toFloatInt with
    | some a, some b => some (V.int (a - b))
    | _, _ => none
  else if op = "*" then
    match x.toFloatInt, y.toFloatInt with
    | some a, some b => some (V.int (a * b))
    | _, _ =>
      match x, y with
      | V.str s, _ => (y.toFloatInt).map (fun n => V.str (strRepeat s n))
      | _, V.str s => (x.toFloatInt).map (fun n => V.str (strRepeat s n))
      | _, _ => none
  else none

/-- Comparison on Python values: `==`/`!=` by Python equality (never
raising), order comparisons on number pairs (booleans count) and on
string pairs, `TypeError` (`none`) otherwise. -/
def pyCmp (op : String) (x y : V) : Option V :=
  if op = "==" then some (V.bool (V.eqPy x y))
  else if op = "!=" then some (V.bool (!V.eqPy x y))
  else
    match x.toFloatInt, y.toFloatInt with
    | some a, some b =>
      if op = "<" then some (V.bool (decide (a < b)))
      else if op = "<=" then some (V.bool (decide (a ≤ b)))
      else if op = ">" then some (V.bool (decide (b < a)))
      else if op = ">=" then some (V.bool (decide (b ≤ a)))
      else none
    | _, _ =>
      match x, y with
      | V.str a, V.str b =>
        if op = "<" then some (V.bool (pyStrLt a b))
        else if op = "<=" then some (V.bool (pyStrLe a b))
        else if op = ">" then some (V.bool (pyStrLt b a))
        else if op = ">=" then some (V.bool (pyStrLe b a))
        else none
      | _, _ => none

/-- Evaluation with empty globals/locals and stripped builtins: every
name raises `NameError` (`none`); `or`/`and` short-circuit and return an
operand; `not` returns a `bool`; unary `+`/`-` act on numbers. -/
def PyExpr.evalP : PyExpr → Option V
  | .lit v => some v
  | .nm _ => none
  | .orE a b =>
    (match evalP a with
     | none => none
     | some va => if va.truthy then some va else evalP b)
  | .andE a b =>
    (match evalP a with
     | none => none
     | some va => if va.truthy then evalP b else some va)
  | .notE a => (evalP a).map (fun v => V.bool (!v.truthy))
  | .cmpE op a b =>
    (match evalP a with
     | none => none
     | some x =>
       match evalP b with
       | none => none
       | some y => pyCmp op x y)
  | .arithE op a b =>
    (match evalP a with
     | none => none
     | some x =>
       match evalP b with
       | none => none
       | some y => pyArith op x y)
  | .negE a =>
    (match evalP a with
     | none => none
     | some x => (x.toFloatInt).map (fun n => V.int (-n)))
  | .posE a =>
    (match evalP a with
     | none => none
     | some x => (x.toFloatInt).map (fun n => V.int n))

/-- `eval(expr, ..., ...)` on the modelled fragment: tokenize, compile,
evaluate; `none` is any raised exception. -/
def pyEvalStr (s : String) : Option V :=
  match tokenize (s.data.length + 1) s.data with
  | none => none
  | some ts =>
    match parseOr (8 * ts.length + 8) ts with
    | some (e, []) => e.evalP
    | _ => none

/-- `_evaluate_custom_check` after the `response.*` substitutions: the
character guard, then `bool(eval(...))`, every exception yielding
`False`. -/
def custom_check_post (expr : String) : Bool :=
  if charGuardOk expr then
    match pyEvalStr expr with
    | some v => v.truthy
    | none => false
  else false

/-! ## Expression engine (`expressions.py`)

`ExpressionEngine._evaluate_string` and `_do_evaluate_expression` over a
`VDict` context.  The environment, clock, UUID, random and faker
generators are oracles (`EngineOracles`); errors model
`ExpressionError` (and the exceptions `_evaluate_expression` wraps into
one) as `Except String`.  The strings handled contain no newline, so `.`
in the source regexes is any character. -/

/-- Oracles for the effectful builtins of `_do_evaluate_expression`. -/
structure EngineOracles where
  env : String → Option String
  nowFn : Option String → String
  uuid : String
  timestamp : String
  randomFn : Option String → Except String V
  faker : String → Except String V

/-- `ENV_PATTERN = ^env:(\w+)(?::(.*))?$`: the variable name and the
optional (possibly empty) default. -/
def matchEnvForm (e : String) : Option (String × Option String) :=
  match stripHead "env:".data e.data with
  | none => none
  | some rest =>
    match takeWordRun rest with
    | (w, r) =>
      if w = [] then none
      else
        match r with
        | [] => some (String.mk w, none)
        | ':' :: d => some (String.mk w, some (String.mk d))
        | _ => none

/-- `NOW_PATTERN = ^now(?::format=(.+))?$`. -/
def matchNowForm (e : String) : Option (Option String) :=
  if e = "now" then some none
  else
    match stripHead "now:format=".data e.data with
    | some rest => if rest = [] then none else some (some (String.mk rest))
    | none => none

/-- `RANDOM_PATTERN = ^random(?::(.+))?$`. -/
def matchRandomForm (e : String) : Option (Option String) :=
  if e = "random" then some none
  else
    match stripHead "random:".data e.data with
    | some rest => if rest = [] then none else some (some (String.mk rest))
    | none => none

/-- `FAKER_PATTERN = ^faker:(\w+)$`. -/
def matchFakerForm (e : String) : Option String :=
  match stripHead "faker:".data e.data with
  | none => none
  | some rest =>
    match takeWordRun rest with
    | (w, r) => if w = [] ∨ r ≠ [] then none else some (String.mk w)

/-- `EXTRACT_PATTERN = ^extract:(\w+)$`. -/
def matchExtractForm (e : String) : Option String :=
  match stripHead "extract:".data e.data with
  | none => none
  | some rest =>
    match takeWordRun rest with
    | (w, r) => if w = [] ∨ r ≠ [] then none else some (String.mk w)

/-- `STEPS_PATTERN = ^steps\.(\w+)\.(.+)$`: the step name (word
characters, which exclude the dot) and the nonempty remainder. -/
def matchStepsForm (e : String) : Option (String × String) :=
  match stripHead "steps.".data e.data with
  | none => none
  | some rest =>
    match takeWordRun rest with
    | (w, r) =>
      if w = [] then none
      else
        match r with
        | '.' :: p => if p = [] then none else some (String.mk w, String.mk p)
        | _ => none

/-- `RESPONSE_PATTERN = ^response\.(.+)$`. -/
def matchResponseForm (e : String) : Option String :=
  match stripHead "response.".data e.data with
  | some rest => if rest = [] then none else some (String.mk rest)
  | none => none

/-- `CONFIG_PATTERN = ^config:(.+)$`. -/
def matchConfigForm (e : String) : Option String :=
  match stripHead "config:".data e.data with
  | some rest => if rest = [] then none else some (String.mk rest)
  | none => none

/-- `path.split(".")` (adjacent dots give empty parts, as in Python). -/
def splitDots (l : List Char) : List String :=
  match go l [] with
  | (cur, parts) => (parts ++ [String.mk cur.reverse])
where
  /-- Accumulate the current (reversed) part and the finished parts. -/
  go : List Char → List Char → List Char × List String
    | [], cur => (cur, [])
    | c :: cs, cur =>
      if c = '.' then
        match go cs [] with
        | (cur2, parts) => (cur2, String.mk cur.reverse :: parts)
      else go cs (c :: cur)

/-- `_resolve_dotted_path`: walk dict keys and (possibly negative) list
indices; every failure raises `ExpressionError`. -/
def resolve_dotted (path : String) (data : V) : Except String V :=
  go (splitDots path.data) data
where
  /-- One step per part. -/
  go : List String → V → Except String V
    | [], cur => Except.ok cur
    | p :: ps, V.dict d =>
      (match d.get p with
       | some v => go ps v
       | none => Except.error ("Key \x27" ++ p ++ "\x27 not found"))
    | p :: ps, V.list xs =>
      (match pyParseInt p with
       | some i =>
         (match xs.getIdx i with
          | some v => go ps v
          | none => Except.error ("Invalid array index: " ++ p))
       | none => Except.error ("Invalid array index: " ++ p))
    | p :: _, _ => Except.error ("Cannot access \x27" ++ p ++ "\x27")

/-- `_resolve_steps_reference`: look the step up in `__steps__` (default
`\x7b\x7d`), then resolve the field path in its data. -/
def resolve_steps_ref (ctx : VDict) (step : String) (path : String) : Except String V :=
  match ctx.get "__steps__" with
  | some (V.dict steps) =>
    (match steps.get step with
     | some data => resolve_dotted path data
     | none => Except.error ("Step \x27" ++ step ++ "\x27 not found or not yet executed"))
  | some _ => Except.error ("Step \x27" ++ step ++ "\x27 not found or not yet executed")
  | none => Except.error ("Step \x27" ++ step ++ "\x27 not found or not yet executed")

/-- `_resolve_response_reference`: `__response__` must be present and
truthy. -/
def resolve_response_ref (ctx : VDict) (path : String) : Except String V :=
  match ctx.get "__response__" with
  | some data =>
    if data.truthy then resolve_dotted path data
    else Except.error "No response data available"
  | none => Except.error "No response data available"

/-- `_resolve_config_reference`: `__config__` must be present and
truthy. -/
def resolve_config_ref (ctx : VDict) (path : String) : Except String V :=
  match ctx.get "__config__" with
  | some data =>
    if data.truthy then resolve_dotted path data
    else Except.error "No configuration data available"
  | none => Except.error "No configuration data available"

/-- The `"variables"` sub-context branch: `expr in ctx["variables"]`
(membership by container kind, a `TypeError` on non-containers) and, on
a hit, `ctx["variables"][expr]` (indexing a non-dict with a string also
a `TypeError`).  `none` means the branch does not fire and the
dispatcher continues. -/
def variablesBranch (ctx : VDict) (expr : String) : Option (Except String V) :=
  match ctx.get "variables" with
  | some (V.dict d) =>
    (match d.get expr with
     | some v => some (Except.ok v)
     | none => none)
  | some (V.str s) =>
    if strContains s expr then some (Except.error "string indices must be integers")
    else none
  | some (V.list xs) =>
    if xs.toList.any (fun item => V.eqPy (V.str expr) item) then
      some (Except.error "list indices must be integers")
    else none
  | some v => some (Except.error ("argument of type \x27" ++ V.strPy v ++ "\x27 is not iterable"))
  | none => none

/-- `_do_evaluate_expression`: the builtin forms in source order, then
the context lookup, the `"variables"` sub-context, the dotted path, and
finally the unresolved-variable error. -/
def do_evaluate_expr (o : EngineOracles) (ctx : VDict) (expr : String) : Except String V :=
  match matchEnvForm expr with
  | some (w, dflt) =>
    (match o.env w with
     | some v => Except.ok (V.str v)
     | none =>
       match dflt with
       | some d => Except.ok (V.str d)
       | none => Except.error ("Environment variable \x27" ++ w ++ "\x27 not set"))
  | none =>
  match matchNowForm expr with
  | some fmt => Except.ok (V.str (o.nowFn fmt))
  | none =>
  if expr = "uuid" then Except.ok (V.str o.uuid)
  else if expr = "timestamp" then Except.ok (V.str o.timestamp)
  else
  match matchRandomForm expr with
  | some params => o.randomFn params
  | none =>
  match matchFakerForm expr with
  | some t => o.faker t
  | none =>
  match matchExtractForm expr with
  | some w => Except.ok (V.dict (VDict.cons "__extract__" (V.str w) VDict.nil))
  | none =>
  match matchStepsForm expr with
  | some (step, path) => resolve_steps_ref ctx step path
  | none =>
  match matchResponseForm expr with
  | some path => resolve_response_ref ctx path
  | none =>
  match matchConfigForm expr with
  | some path => resolve_config_ref ctx path
  | none =>
  match ctx.get expr with
  | some v => Except.ok v
  | none =>
  match variablesBranch ctx expr with
  | some r => r
  | none =>
  if expr.data.contains '.' then resolve_dotted expr (V.dict ctx)
  else Except.error ("Variable \x27" ++ expr ++ "\x27 not found in context")

/-- Consume inner characters up to the closing brace, which must end the
string. -/
def spGo : List Char → List Char → Option String
  | _, [] => none
  | acc, c :: cs =>
    if c = '\x7d' then
      if cs = [] ∧ acc ≠ [] then some (String.mk acc.reverse) else none
    else spGo (c :: acc) cs

/-- `VARIABLE_PATTERN.fullmatch(value)` for
`VARIABLE_PATTERN = \$\x7b([^\x7d]+)\x7d`: the whole string is one
placeholder; the returned group is its nonempty brace-free inner text. -/
def singlePlaceholder (s : String) : Option String :=
  match s.data with
  | c1 :: c2 :: rest =>
    if c1 = '$' ∧ c2 = '\x7b' then spGo [] rest else none
  | _ => none

/-- Inner text up to the first closing brace and the remainder after it;
`none` when no closing brace exists. -/
def innerTo : List Char → Option (List Char × List Char)
  | [] => none
  | c :: cs =>
    if c = '\x7d' then some ([], cs)
    else (innerTo cs).map (fun p => (c :: p.1, p.2))

/-- The first match of `\$\x7b([^\x7d]+)\x7d` in a character list:
`(before, inner, after)`.  The scan advances one character on a `$` not
followed by a brace-delimited nonempty group, as `re` does. -/
def findPH : List Char → Option (List Char × List Char × List Char)
  | [] => none
  | c :: cs =>
    if c = '$' then
      match cs with
      | d :: rest =>
        if d = '\x7b' then
          match innerTo rest with
          | some (inner, after) =>
            if inner = [] then (findPH cs).map (fun p => (c :: p.1, p.2.1, p.2.2))
            else some ([], inner, after)
          | none => (findPH cs).map (fun p => (c :: p.1, p.2.1, p.2.2))
        else (findPH cs).map (fun p => (c :: p.1, p.2.1, p.2.2))
      | [] => none
    else (findPH cs).map (fun p => (c :: p.1, p.2.1, p.2.2))

/-- `str(result) if result is not None else ""` of `replace_match`. -/
def strForm : V → String
  | V.null => ""
  | v => V.strPy v

/-- `VARIABLE_PATTERN.sub(replace_match, value)`: replace every match,
left to right; an `ExpressionError` raised by `replace_match` propagates.
The fuel is at least one more than the number of matches whenever it is
at least the length of the list plus one. -/
def interpSub (ev : String → Except String V) : Nat → List Char → Except String (List Char)
  | 0, l => Except.ok l
  | fuel + 1, l =>
    match findPH l with
    | none => Except.ok l
    | some (before, inner, after) =>
      match ev (String.mk inner) with
      | Except.error e => Except.error e
      | Except.ok v =>
        match interpSub ev fuel after with
        | Except.error e => Except.error e
        | Except.ok rest => Except.ok (before ++ (strForm v).data ++ rest)

/-- `_evaluate_string`: a full single placeholder resolves to the typed
value; otherwise every placeholder is interpolated in string form. -/
def evaluate_string (ev : String → Except String V) (s : String) : Except String V :=
  match singlePlaceholder s with
  | some inner => ev inner
  | none => (interpSub ev (s.data.length + 1) s.data).map (fun l => V.str (String.mk l))

/-- `evaluate` on a string value, with the dispatcher's oracles and
context. -/
def evalString (o : EngineOracles) (ctx : VDict) (s : String) : Except String V :=
  evaluate_string (do_evaluate_expr o ctx) s

/-- Oracles for the concrete expression-engine computations (no builtin
of the exercised expressions consults them). -/
def oracleC5 : EngineOracles :=
  ⟨fun _ => none, fun _ => "", "", "", fun _ => Except.error "", fun _ => Except.error ""⟩

/-- Context binding the literal key `extract:a` to the integer `5`. -/
def ctxC5 : VDict := VDict.cons "extract:a" (V.int 5) VDict.nil

/-! ## Theorems -/

/-! ### Python string order lemmas -/

theorem charToNat_inj {a b : Char} (h : a.toNat = b.toNat) : a = b :=
  Char.ext (UInt32.ext h)

theorem pyStrLtL_irrefl (a : List Char) : pyStrLtL a a = false := by
  induction a with
  | nil => rfl
  | cons c t ih => simp [pyStrLtL, ih]

theorem pyStrLtL_asymm (a b : List Char) (h : pyStrLtL a b = true) :
    pyStrLtL b a = false := by
  induction a generalizing b with
  | nil =>
    cases b with
    | nil => exact absurd h (by simp [pyStrLtL])
    | cons c t => simp [pyStrLtL]
  | cons c t ih =>
    cases b with
    | nil => simp [pyStrLtL] at h
    | cons d u =>
      by_cases hcd : c = d
      · subst hcd
        simp only [pyStrLtL, if_pos rfl] at h ⊢
        exact ih u h
      · have hdc : d ≠ c := fun hh => hcd hh.symm
        simp only [pyStrLtL, if_neg hcd] at h
        simp only [pyStrLtL, if_neg hdc]
        have hlt : c.toNat < d.toNat := by simpa using h
        simp
        omega

theorem pyStrLtL_trans (a b c : List Char) (hab : pyStrLtL a b = true)
    (hbc : pyStrLtL b c = true) : pyStrLtL a c = true := by
  induction a generalizing b c with
  | nil =>
    cases c with
    | nil =>
      cases b with
      | nil => simp [pyStrLtL] at hab
      | cons d u => simp [pyStrLtL] at hbc
    | cons e w => simp [pyStrLtL]
  | cons x t ih =>
    cases b with
    | nil => simp [pyStrLtL] at hab
    | cons d u =>
      cases c with
      | nil => simp [pyStrLtL] at hbc
      | cons e w =>
        by_cases hxd : x = d
        · subst hxd
          simp only [pyStrLtL, if_pos rfl] at hab
          by_cases hde : x = e
          · subst hde
            simp only [pyStrLtL, if_pos rfl] at hbc ⊢
            exact ih u w hab hbc
          · simp only [pyStrLtL, if_neg hde] at hbc ⊢
            exact hbc
        · simp only [pyStrLtL, if_neg hxd] at hab
          have hxdlt : x.toNat < d.toNat := by simpa using hab
          by_cases hde : d = e
          · subst hde
            simp only [pyStrLtL, if_neg hxd]
            exact hab
          · simp only [pyStrLtL, if_neg hde] at hbc
            have hdelt : d.toNat < e.toNat := by simpa using hbc
            have hxe : x ≠ e := by
              intro hh
              subst hh
              omega
            simp only [pyStrLtL, if_neg hxe]
            simp
            omega

theorem pyStrLtL_connex (a b : List Char) (h : a ≠ b) :
    pyStrLtL a b = true ∨ pyStrLtL b a = true := by
  induction a generalizing b with
  | nil =>
    cases b with
    | nil => exact absurd rfl h
    | cons d u => left; simp [pyStrLtL]
  | cons c t ih =>
    cases b with
    | nil => right; simp [pyStrLtL]
    | cons d u =>
      by_cases hcd : c = d
      · subst hcd
        have htu : t ≠ u := by
          intro hh
          exact h (by rw [hh])
        rcases ih u htu with h1 | h1
        · left; simpa [pyStrLtL] using h1
        · right; simpa [pyStrLtL] using h1
      · have hdc : d ≠ c := fun hh => hcd hh.symm
        have hval : c.toNat ≠ d.toNat := fun hn => hcd (charToNat_inj hn)
        simp only [pyStrLtL, if_neg hcd, if_neg hdc]
        simp
        omega

theorem pyStrLe_total (a b : String) : pyStrLe a b = true ∨ pyStrLe b a = true := by
  by_cases hlt : pyStrLt b a = true
  · right
    have := pyStrLtL_asymm b.data a.data hlt
    simp [pyStrLe, pyStrLt, this]
  · left
    simp [pyStrLe, pyStrLt] at hlt ⊢
    exact hlt

theorem pyStrLe_trans (a b c : String) (hab : pyStrLe a b = true)
    (hbc : pyStrLe b c = true) : pyStrLe a c = true := by
  simp only [pyStrLe, pyStrLt, Bool.not_eq_true'] at hab hbc ⊢
  by_cases hca : pyStrLtL c.data a.data = true
  · exfalso
    by_cases hbcEq : b.data = c.data
    · rw [← hbcEq] at hca
      exact absurd hca (by simp [hab])
    · rcases pyStrLtL_connex b.data c.data hbcEq with h1 | h1
      · exact absurd (pyStrLtL_trans b.data c.data a.data h1 hca) (by simp [hab])
      · exact absurd h1 (by simp [hbc])
  · simpa using hca

theorem pyStrLe_antisymm (a b : String) (hab : pyStrLe a b = true)
    (hba : pyStrLe b a = true) : a = b := by
  simp only [pyStrLe, pyStrLt, Bool.not_eq_true'] at hab hba
  by_cases h : a.data = b.data
  · calc a = String.mk a.data := rfl
    _ = String.mk b.data := by rw [h]
    _ = b := rfl
  · rcases pyStrLtL_connex a.data b.data h with h1 | h1
    · exact absurd h1 (by simp [hba])
    · exact absurd h1 (by simp [hab])

theorem pyStrLe_refl (a : String) : pyStrLe a a = true := by
  simp [pyStrLe, pyStrLt, pyStrLtL_irrefl]

/-! ### Dependency graph: basic lemmas -/

theorem DepGraph.mem_edges {g : DepGraph} {n d : String} :
    d ∈ g.edges n ↔ d ∈ g.depends_on n := List.mem_dedup

theorem DepGraph.nodup_edges (g : DepGraph) (n : String) : (g.edges n).Nodup :=
  List.nodup_dedup _

theorem DepGraph.mem_inEdges {g : DepGraph} {n d : String} :
    d ∈ g.inEdges n ↔ d ∈ g.depends_on n ∧ d ∈ g.names := by
  simp [DepGraph.inEdges, List.mem_filter, DepGraph.mem_edges]

theorem DepGraph.nodup_inEdges (g : DepGraph) (n : String) : (g.inEdges n).Nodup :=
  (g.nodup_edges n).filter _

theorem DepGraph.mem_dependents {g : DepGraph} {d m : String} :
    m ∈ g.dependents d ↔ m ∈ g.names ∧ d ∈ g.depends_on m := by
  simp [DepGraph.dependents, List.mem_filter]

theorem DepGraph.nodup_dependents {g : DepGraph} (hnd : g.names.Nodup) (d : String) :
    (g.dependents d).Nodup := hnd.filter _

theorem find_entry_unique :
    ∀ (l : List (String × List String)), (l.map Prod.fst).Nodup →
    ∀ {n : String} {ds : List String}, (n, ds) ∈ l →
    l.find? (fun p => p.1 = n) = some (n, ds) := by
  intro l
  induction l with
  | nil => intro _ n ds h; simp at h
  | cons hd tl ih =>
    intro hnd n ds hmem
    have hnd2 : (tl.map Prod.fst).Nodup := (List.nodup_cons.mp hnd).2
    have hhd : hd.1 ∉ tl.map Prod.fst := (List.nodup_cons.mp hnd).1
    rcases List.mem_cons.mp hmem with heq | htl
    · subst heq
      simp [List.find?]
    · have hne : hd.1 ≠ n := by
        intro he
        exact hhd (he ▸ (List.mem_map.mpr ⟨(n, ds), htl, rfl⟩))
      rw [List.find?]
      simp only [hne, decide_eq_false, Bool.false_eq_true]
      exact ih hnd2 htl

theorem DepGraph.depends_on_entry {g : DepGraph} (hnd : g.names.Nodup)
    {n : String} {ds : List String} (h : (n, ds) ∈ g.nodes) :
    g.depends_on n = ds := by
  unfold DepGraph.depends_on
  rw [find_entry_unique g.nodes hnd h]

/-! ### C8: cycle detection on the two-step cyclic graph -/

/-- C8: for the two-step graph `{A: depends_on [B], B: depends_on [A]}`,
`validate()` (and hence `get_execution_order()`) raises a
circular-dependency error whose reported cycle path contains both step
names `A` and `B`, not merely a flag that some cycle exists. -/
theorem C8_cycle_error_names_both_steps :
    cycleGraphAB.validate = .error (.circular ["A", "B", "A"]) ∧
    cycleGraphAB.get_execution_order = .error (.circular ["A", "B", "A"]) ∧
    "A" ∈ ["A", "B", "A"] ∧ "B" ∈ ["A", "B", "A"] :=
  ⟨rfl, rfl, by decide, by decide⟩

/-! ### Kahn loop: dependent-decrement lemmas -/

theorem dec_dependents_fst (names : List String) :
    ∀ (ds : List String) (deg : String → Int) (k : String),
    (dec_dependents names deg ds).1 k =
      deg k - (((ds.filter (fun d => decide (d ∈ names))).count k : Int)) := by
  intro ds
  induction ds with
  | nil => intro deg k; simp [dec_dependents]
  | cons d rest ih =>
    intro deg k
    by_cases hd : d ∈ names
    · have hfst : (dec_dependents names deg (d :: rest)).1 =
          (dec_dependents names (fun k2 => if k2 = d then deg k2 - 1 else deg k2) rest).1 := by
        simp only [dec_dependents, if_pos hd]
        rw [apply_ite Prod.fst]
        simp
      rw [hfst, ih]
      have hcount : ((d :: rest).filter (fun d2 => decide (d2 ∈ names))).count k =
          (rest.filter (fun d2 => decide (d2 ∈ names))).count k + (if k = d then 1 else 0) := by
        simp only [List.filter_cons, hd, decide_eq_true_eq, if_pos]
        rw [List.count_cons]
        by_cases hkd : k = d
        · simp [hkd]
        · have hdk : d ≠ k := fun he => hkd he.symm
          simp [hkd, hdk]
      rw [hcount]
      by_cases hk : k = d
      · subst hk; simp; omega
      · simp [hk]
    · have hfst : (dec_dependents names deg (d :: rest)).1 =
          (dec_dependents names deg rest).1 := by
        simp only [dec_dependents, if_neg hd]
      have hcount : ((d :: rest).filter (fun d2 => decide (d2 ∈ names))).count k =
          (rest.filter (fun d2 => decide (d2 ∈ names))).count k := by
        simp [List.filter_cons, hd]
      rw [hfst, hcount, ih]

theorem dec_dependents_snd (names : List String) :
    ∀ (ds : List String) (deg : String → Int), ds.Nodup →
    (dec_dependents names deg ds).2 =
      ds.filter (fun d => decide (d ∈ names) && decide (deg d = 1)) := by
  intro ds
  induction ds with
  | nil => intro deg _; simp [dec_dependents]
  | cons d rest ih =>
    intro deg hnd
    have hdrest : d ∉ rest := (List.nodup_cons.mp hnd).1
    have hrest : rest.Nodup := (List.nodup_cons.mp hnd).2
    by_cases hd : d ∈ names
    · have hrec : (dec_dependents names (fun k2 => if k2 = d then deg k2 - 1 else deg k2) rest).2 =
          rest.filter (fun d2 => decide (d2 ∈ names) && decide (deg d2 = 1)) := by
        rw [ih _ hrest]
        apply List.filter_congr
        intro x hx
        have hxd : x ≠ d := fun he => hdrest (he ▸ hx)
        simp [hxd]
      by_cases hz : deg d = 1
      · have hz2 : (if (d : String) = d then deg d - 1 else deg d) = 0 := by simp [hz]
        simp only [dec_dependents, if_pos hd, hz2, if_pos rfl]
        simp only [hrec]
        simp [List.filter_cons, hd, hz]
      · have hz2 : ¬(deg d - 1 = 0) := by omega
        simp only [dec_dependents, if_pos hd, if_true]
        rw [if_neg hz2]
        simp only [hrec]
        simp [List.filter_cons, hd, hz]
    · simp only [dec_dependents, if_neg hd]
      rw [ih _ hrest]
      simp [List.filter_cons, hd]

/-! ### Kahn loop: invariant preservation -/

theorem filter_out_append_one {A result : List String} {node : String}
    (hA : A.Nodup) (hnode : node ∉ result) :
    (A.filter (fun d => decide (d ∉ result ++ [node]))).length
      + (if node ∈ A then 1 else 0)
      = (A.filter (fun d => decide (d ∉ result))).length := by
  have hsplit : A.filter (fun d => decide (d ∉ result ++ [node]))
      = (A.filter (fun d => decide (d ∉ result))).filter (fun d => decide (d ≠ node)) := by
    rw [List.filter_filter]
    apply List.filter_congr
    intro x _
    by_cases hxr : x ∈ result
    · have : ¬(x ∉ result ++ [node]) := by simp [List.mem_append, hxr]
      simp [this, hxr]
    · by_cases hxn : x = node
      · subst hxn
        simp [List.mem_append]
      · have : x ∉ result ++ [node] := by simp [List.mem_append, hxr, hxn]
        simp [this, hxr, hxn]
  set B := A.filter (fun d => decide (d ∉ result)) with hB
  have hBnodup : B.Nodup := hA.filter _
  have hErase : B.filter (fun d => decide (d ≠ node)) = B.erase node := by
    rw [hBnodup.erase_eq_filter]
    apply List.filter_congr
    intro x _
    by_cases hx : x = node <;> simp [hx]
  have hmemB : node ∈ B ↔ node ∈ A := by
    simp [hB, List.mem_filter, hnode]
  rw [hsplit, hErase]
  by_cases hn : node ∈ A
  · have hnB : node ∈ B := hmemB.mpr hn
    have := List.length_erase_add_one hnB
    rw [if_pos hn]
    omega
  · have hnB : node ∉ B := fun hc => hn (hmemB.mp hc)
    rw [List.erase_of_not_mem hnB, if_neg hn]
    omega

theorem filter_singleton_unique {A : List String} {p : String → Bool} {x : String}
    (hA : A.Nodup) (hx : x ∈ A.filter p) (hlen : (A.filter p).length = 1) :
    ∀ d ∈ A, p d = true → d = x := by
  intro d hd hpd
  obtain ⟨y, hy⟩ := List.length_eq_one.mp hlen
  rw [hy] at hx
  have hxy : x = y := by simpa using hx
  have hdf : d ∈ A.filter p := List.mem_filter.mpr ⟨hd, hpd⟩
  rw [hy] at hdf
  have : d = y := by simpa using hdf
  rw [this, hxy]

theorem indexOf_lt_of_mem_take {l : List String} {d : String} :
    ∀ {i : Nat}, d ∈ l.take i → l.indexOf d < i := by
  induction l with
  | nil => intro i h; simp at h
  | cons a t ih =>
    intro i h
    cases i with
    | zero => simp at h
    | succ j =>
      rw [List.take_succ_cons] at h
      rcases List.mem_cons.mp h with rfl | ht
      · simp [List.indexOf_cons_self]
      · by_cases hda : d = a
        · subst hda
          simp [List.indexOf_cons_self]
        · have : (a == d) = false := by
            simp [beq_iff_eq]
            exact fun he => hda he.symm
          rw [List.indexOf_cons, this]
          simp only [cond_false]
          exact Nat.succ_lt_succ (ih ht)

theorem sorted_pyStrLe (l : List String) :
    (List.insertionSort (fun a b => pyStrLe a b = true) l).Sorted
      (fun a b => pyStrLe a b = true) :=
  @List.sorted_insertionSort String (fun a b => pyStrLe a b = true) _
    ⟨fun a b => pyStrLe_total a b⟩ ⟨pyStrLe_trans⟩ l

theorem sorted_head_min {node : String} {rest : List String}
    (hs : (node :: rest).Sorted (fun a b => pyStrLe a b = true)) :
    ∀ m ∈ node :: rest, pyStrLe node m = true := by
  intro m hm
  rcases List.mem_cons.mp hm with rfl | hr
  · exact pyStrLe_refl m
  · exact (List.sorted_cons.mp hs).1 m hr

theorem nodup_all_eq_singleton {l : List String} {x : String} (hl : l.Nodup)
    (hx : x ∈ l) (hall : ∀ y ∈ l, y = x) : l = [x] := by
  cases l with
  | nil => simp at hx
  | cons a t =>
    have ha : a = x := hall a (List.mem_cons_self a t)
    subst ha
    cases t with
    | nil => rfl
    | cons b u =>
      have hb : b = a := hall b (List.mem_cons_of_mem _ (List.mem_cons_self b u))
      exact absurd (hb ▸ List.mem_cons_self b u : a ∈ b :: u)
        (List.nodup_cons.mp hl).1

theorem sum_map_add_nat {α : Type} (l : List α) (f g1 : α → Nat) :
    (l.map (fun a => f a + g1 a)).sum = (l.map f).sum + (l.map g1).sum := by
  induction l with
  | nil => simp
  | cons a t ih => simp [ih]; omega

theorem sum_map_ite_nat {α : Type} (l : List α) (p : α → Bool) :
    (l.map (fun a => if p a = true then 1 else 0)).sum = (l.filter p).length := by
  induction l with
  | nil => simp
  | cons a t ih =>
    by_cases hp : p a = true
    · simp [hp, ih, List.filter_cons]
      omega
    · simp [hp, ih, List.filter_cons]

theorem kahn_step (g : DepGraph) (hnd : g.names.Nodup)
    {deg : String → Int} {queue result : List String}
    (inv : KInv g deg queue result) {node : String} {rest : List String}
    (hsort : List.insertionSort (fun a b => pyStrLe a b = true) queue = node :: rest) :
    KInv g (dec_dependents g.names deg (g.dependents node)).1
        (rest ++ (dec_dependents g.names deg (g.dependents node)).2)
        (result ++ [node]) ∧
      kMeasure g (rest ++ (dec_dependents g.names deg (g.dependents node)).2)
          (result ++ [node]) + 1 ≤ kMeasure g queue result ∧
      node ∈ g.names ∧ node ∉ result ∧
      (∀ m ∈ g.names, m ∉ result → (∀ d ∈ g.inEdges m, d ∈ result) →
        pyStrLe node m = true) := by
  have hperm0 : List.Perm (List.insertionSort (fun a b => pyStrLe a b = true) queue) queue :=
    List.perm_insertionSort _ _
  rw [hsort] at hperm0
  have hnodeq : node ∈ queue := hperm0.subset (List.mem_cons_self node rest)
  have hsnodup : (node :: rest).Nodup := hperm0.nodup_iff.mpr inv.q_nodup
  have hnode_rest : node ∉ rest := (List.nodup_cons.mp hsnodup).1
  have hrest_nodup : rest.Nodup := (List.nodup_cons.mp hsnodup).2
  have hnode_names : node ∈ g.names := (inv.q_mem node hnodeq).1
  have hnode_nres : node ∉ result := (inv.q_mem node hnodeq).2
  have hready : ∀ d ∈ g.inEdges node, d ∈ result :=
    ((inv.ready_iff node hnode_names).mp hnodeq).2
  have hclosed : ∀ m ∈ result, ∀ d ∈ g.inEdges m, d ∈ result := by
    intro m hm d hd
    obtain ⟨i, rfl⟩ := List.mem_iff_get.mp hm
    exact List.take_subset _ _ (inv.prec i.1 i.2 d hd)
  have hdepnodup : (g.dependents node).Nodup := DepGraph.nodup_dependents hnd node
  have hdeg2 : ∀ k, (dec_dependents g.names deg (g.dependents node)).1 k
      = deg k - (if k ∈ g.dependents node then 1 else 0) := by
    intro k
    rw [dec_dependents_fst]
    have hfil : (g.dependents node).filter (fun d => decide (d ∈ g.names))
        = g.dependents node := by
      apply List.filter_eq_self.mpr
      intro a ha
      simp [(DepGraph.mem_dependents.mp ha).1]
    rw [hfil]
    by_cases hk : k ∈ g.dependents node
    · rw [if_pos hk, List.count_eq_one_of_mem hdepnodup hk]
      simp
    · rw [if_neg hk, List.count_eq_zero_of_not_mem hk]
      simp
  have henq : (dec_dependents g.names deg (g.dependents node)).2
      = (g.dependents node).filter (fun d => decide (deg d = 1)) := by
    rw [dec_dependents_snd _ _ _ hdepnodup]
    apply List.filter_congr
    intro x hx
    simp [(DepGraph.mem_dependents.mp hx).1]
  have hmem_enq : ∀ m, m ∈ (dec_dependents g.names deg (g.dependents node)).2 ↔
      (m ∈ g.names ∧ node ∈ g.depends_on m ∧ deg m = 1) := by
    intro m
    rw [henq]
    simp only [List.mem_filter, DepGraph.mem_dependents, decide_eq_true_eq]
    tauto
  have hinE : ∀ m ∈ g.names, (node ∈ g.inEdges m ↔ m ∈ g.dependents node) := by
    intro m hm
    rw [DepGraph.mem_inEdges, DepGraph.mem_dependents]
    constructor
    · rintro ⟨h1, _⟩
      exact ⟨hm, h1⟩
    · rintro ⟨_, h1⟩
      exact ⟨h1, hnode_names⟩
  have hdeg_nat : ∀ n ∈ g.names, ∀ m : Nat, (deg n = (m : Int)) ↔
      ((g.inEdges n).filter (fun d => decide (d ∉ result))).length = m := by
    intro n hn m
    rw [inv.deg_eq n hn]
    constructor
    · intro h
      exact_mod_cast h
    · intro h
      exact_mod_cast h
  have hdeg_eq2 : ∀ n ∈ g.names, (dec_dependents g.names deg (g.dependents node)).1 n
      = (((g.inEdges n).filter (fun d => decide (d ∉ result ++ [node]))).length : Int) := by
    intro n hn
    rw [hdeg2 n, inv.deg_eq n hn]
    have hfo := filter_out_append_one (g.nodup_inEdges n) hnode_nres
    have hind : (if n ∈ g.dependents node then (1 : Int) else 0)
        = (if node ∈ g.inEdges n then 1 else 0) := by
      by_cases hc : node ∈ g.inEdges n
      · rw [if_pos hc, if_pos ((hinE n hn).mp hc)]
      · rw [if_neg hc, if_neg (fun hc2 => hc ((hinE n hn).mpr hc2))]
    rw [hind]
    by_cases hc : node ∈ g.inEdges n
    · rw [if_pos hc] at hfo ⊢
      omega
    · rw [if_neg hc] at hfo ⊢
      omega
  have henq_nres : ∀ m ∈ (dec_dependents g.names deg (g.dependents node)).2, m ∉ result := by
    intro m hm hc
    obtain ⟨hmn, hedge, _⟩ := (hmem_enq m).mp hm
    exact hnode_nres (hclosed m hc node (DepGraph.mem_inEdges.mpr ⟨hedge, hnode_names⟩))
  have henq_ne_node : ∀ m ∈ (dec_dependents g.names deg (g.dependents node)).2, m ≠ node := by
    intro m hm he
    obtain ⟨hmn, hedge, _⟩ := (hmem_enq m).mp hm
    rw [he] at hedge
    exact hnode_nres (hready node (DepGraph.mem_inEdges.mpr ⟨hedge, hnode_names⟩))
  have henq_sub : ∀ m ∈ (dec_dependents g.names deg (g.dependents node)).2,
      ∀ d ∈ g.inEdges m, d ∈ result ++ [node] := by
    intro m hm d hd
    obtain ⟨hmn, hedge, hdeg1⟩ := (hmem_enq m).mp hm
    have hlen : ((g.inEdges m).filter (fun d => decide (d ∉ result))).length = 1 :=
      (hdeg_nat m hmn 1).mp hdeg1
    have hnodef : node ∈ (g.inEdges m).filter (fun d => decide (d ∉ result)) :=
      List.mem_filter.mpr ⟨DepGraph.mem_inEdges.mpr ⟨hedge, hnode_names⟩, by
        simp [hnode_nres]⟩
    by_cases hdr : d ∈ result
    · exact List.mem_append.mpr (Or.inl hdr)
    · have hdn : d = node :=
        filter_singleton_unique (g.nodup_inEdges m) hnodef hlen d hd (by simp [hdr])
      rw [hdn]
      exact List.mem_append.mpr (Or.inr (List.mem_cons_self _ _))
  have henq_not_rest : ∀ m ∈ (dec_dependents g.names deg (g.dependents node)).2,
      m ∉ rest := by
    intro m hm hr
    obtain ⟨hmn, hedge, _⟩ := (hmem_enq m).mp hm
    have hmq : m ∈ queue := hperm0.subset (List.mem_cons_of_mem _ hr)
    have hsubr : ∀ d ∈ g.inEdges m, d ∈ result :=
      ((inv.ready_iff m hmn).mp hmq).2
    exact hnode_nres (hsubr node (DepGraph.mem_inEdges.mpr ⟨hedge, hnode_names⟩))
  have henq_nodup : (dec_dependents g.names deg (g.dependents node)).2.Nodup := by
    rw [henq]
    exact hdepnodup.filter _
  have hrest_q : ∀ m ∈ rest, m ∈ queue :=
    fun m hm => hperm0.subset (List.mem_cons_of_mem _ hm)
  refine ⟨⟨?_, ?_, ?_, ?_, ?_, ?_, ?_⟩, ?_, hnode_names, hnode_nres, ?_⟩
  · exact hdeg_eq2
  · refine List.nodup_append.mpr ⟨inv.res_nodup, List.nodup_singleton node, ?_⟩
    intro a ha hb
    have haeq : a = node := by simpa using hb
    subst haeq
    exact hnode_nres ha
  · intro r hr
    rcases List.mem_append.mp hr with h | h
    · exact inv.res_sub r h
    · exact (by simpa using h : r = node) ▸ hnode_names
  · refine List.nodup_append.mpr ⟨hrest_nodup, henq_nodup, ?_⟩
    intro a ha hb
    exact henq_not_rest a hb ha
  · intro q hq
    rcases List.mem_append.mp hq with h | h
    · have h1 := inv.q_mem q (hrest_q q h)
      refine ⟨h1.1, ?_⟩
      intro hc
      rcases List.mem_append.mp hc with h2 | h2
      · exact h1.2 h2
      · exact hnode_rest ((by simpa using h2 : q = node) ▸ h)
    · obtain ⟨hmn, _, _⟩ := (hmem_enq q).mp h
      refine ⟨hmn, ?_⟩
      intro hc
      rcases List.mem_append.mp hc with h2 | h2
      · exact henq_nres q h h2
      · exact henq_ne_node q h (by simpa using h2)
  · intro n hn
    constructor
    · intro hq
      rcases List.mem_append.mp hq with h | h
      · have h1 := inv.q_mem n (hrest_q n h)
        have h2 := ((inv.ready_iff n hn).mp (hrest_q n h)).2
        refine ⟨?_, ?_⟩
        · intro hc
          rcases List.mem_append.mp hc with h3 | h3
          · exact h1.2 h3
          · exact hnode_rest ((by simpa using h3 : n = node) ▸ h)
        · intro d hd
          exact List.mem_append.mpr (Or.inl (h2 d hd))
      · refine ⟨?_, henq_sub n h⟩
        intro hc
        rcases List.mem_append.mp hc with h3 | h3
        · exact henq_nres n h h3
        · exact henq_ne_node n h (by simpa using h3)
    · rintro ⟨hnr, hsub⟩
      have hn_ne : n ≠ node := by
        intro he
        exact hnr (he ▸ List.mem_append.mpr (Or.inr (List.mem_cons_self _ _)))
      have hn_nres : n ∉ result :=
        fun hc => hnr (List.mem_append.mpr (Or.inl hc))
      by_cases hc : node ∈ g.inEdges n
      · have hdep : n ∈ g.dependents node := (hinE n hn).mp hc
        have hfeq : (g.inEdges n).filter (fun d => decide (d ∉ result)) = [node] := by
          apply nodup_all_eq_singleton ((g.nodup_inEdges n).filter _)
          · exact List.mem_filter.mpr ⟨hc, by simp [hnode_nres]⟩
          · intro y hy
            obtain ⟨hy1, hy2⟩ := List.mem_filter.mp hy
            have hy3 : y ∉ result := by simpa using hy2
            rcases List.mem_append.mp (hsub y hy1) with h4 | h4
            · exact absurd h4 hy3
            · simpa using h4
        have hdeg1 : deg n = 1 := by
          apply (hdeg_nat n hn 1).mpr
          rw [hfeq]
          rfl
        refine List.mem_append.mpr (Or.inr ((hmem_enq n).mpr ⟨hn, ?_, hdeg1⟩))
        exact (DepGraph.mem_inEdges.mp hc).1
      · have hsubr : ∀ d ∈ g.inEdges n, d ∈ result := by
          intro d hd
          rcases List.mem_append.mp (hsub d hd) with h4 | h4
          · exact h4
          · exact absurd ((by simpa using h4 : d = node) ▸ hd) hc
        have hq : n ∈ queue := (inv.ready_iff n hn).mpr ⟨hn_nres, hsubr⟩
        rcases List.mem_cons.mp (hperm0.mem_iff.mpr hq) with h4 | h4
        · exact absurd h4 hn_ne
        · exact List.mem_append.mpr (Or.inl h4)
  · intro i hi d hd
    by_cases hilt : i < result.length
    · rw [List.get_append_left _ _ hilt] at hd
      rw [List.take_append_of_le_length (Nat.le_of_lt hilt)]
      exact inv.prec i hilt d hd
    · have hieq : i = result.length := by
        have := hi
        simp only [List.length_append, List.length_singleton] at this
        omega
      subst hieq
      have hget : (result ++ [node]).get ⟨result.length, hi⟩ = node := by
        rw [List.get_append_right]
        · simp
        · omega
        · simp
      rw [hget] at hd
      rw [List.take_append_of_le_length (Nat.le_refl _)]
      rw [List.take_length]
      exact hready d hd
  · have hqlen : queue.length = rest.length + 1 := by
      have := hperm0.length_eq
      simp at this
      omega
    have hsum : (g.names.map
          (fun n => ((g.inEdges n).filter (fun d => decide (d ∉ result))).length)).sum
        = (g.names.map
          (fun n => ((g.inEdges n).filter (fun d => decide (d ∉ result ++ [node]))).length)).sum
          + (g.dependents node).length := by
      have hpt : g.names.map
          (fun n => ((g.inEdges n).filter (fun d => decide (d ∉ result))).length)
          = g.names.map (fun n =>
            ((g.inEdges n).filter (fun d => decide (d ∉ result ++ [node]))).length
            + (if decide (node ∈ g.inEdges n) = true then 1 else 0)) := by
        apply List.map_congr_left
        intro n hn
        have hfo2 := filter_out_append_one (g.nodup_inEdges n) hnode_nres
        by_cases hc : node ∈ g.inEdges n
        · rw [if_pos (by simpa using hc)]
          rw [if_pos hc] at hfo2
          omega
        · rw [if_neg (by simpa using hc)]
          rw [if_neg hc] at hfo2
          omega
      rw [hpt, sum_map_add_nat, sum_map_ite_nat]
      have hfeq : g.names.filter (fun n => decide (node ∈ g.inEdges n))
          = g.dependents node := by
        unfold DepGraph.dependents
        apply List.filter_congr
        intro x hx
        by_cases hc : node ∈ g.inEdges x
        · simp [hc, (DepGraph.mem_inEdges.mp hc).1]
        · have : node ∉ g.depends_on x := by
            intro hc2
            exact hc (DepGraph.mem_inEdges.mpr ⟨hc2, hnode_names⟩)
          simp [hc, this]
      rw [hfeq]
    have henq_len : (dec_dependents g.names deg (g.dependents node)).2.length
        ≤ (g.dependents node).length := by
      rw [henq]
      exact List.length_filter_le _ _
    unfold kMeasure
    simp only [List.length_append]
    omega
  · intro m hm hm2 hm3
    have hq : m ∈ queue := (inv.ready_iff m hm).mpr ⟨hm2, hm3⟩
    have hs : (node :: rest).Sorted (fun a b => pyStrLe a b = true) := by
      rw [← hsort]
      exact sorted_pyStrLe queue
    exact sorted_head_min hs m (hperm0.mem_iff.mpr hq)

theorem kahnAux_run (g : DepGraph) (hnd : g.names.Nodup) :
    ∀ (fuel : Nat) (deg : String → Int) (queue result : List String),
    KInv g deg queue result → kMeasure g queue result ≤ fuel →
    ∃ suffix : List String, ∃ degF : String → Int,
      kahnAux g fuel deg queue result = result ++ suffix ∧
      KInv g degF [] (result ++ suffix) ∧
      MinFrom g result.length (result ++ suffix) := by
  intro fuel
  induction fuel with
  | zero =>
    intro deg queue result inv hm
    have hq : queue = [] := by
      have h0 : queue.length = 0 := by
        unfold kMeasure at hm
        omega
      exact List.length_eq_zero.mp h0
    subst hq
    refine ⟨[], deg, by simp [kahnAux], by simpa using inv, ?_⟩
    intro j hj hjlt
    exfalso
    simp at hjlt
    omega
  | succ fuel ih =>
    intro deg queue result inv hm
    cases hsort : List.insertionSort (fun a b => pyStrLe a b = true) queue with
    | nil =>
      have hp := List.perm_insertionSort (fun a b => pyStrLe a b = true) queue
      rw [hsort] at hp
      have hq : queue = [] := hp.symm.eq_nil
      subst hq
      refine ⟨[], deg, ?_, by simpa using inv, ?_⟩
      · simp only [kahnAux]
        rw [hsort]
        simp
      · intro j hj hjlt
        exfalso
        simp at hjlt
        omega
    | cons node rest =>
      obtain ⟨inv2, hmeas, hnn, hnr, hmin⟩ := kahn_step g hnd inv hsort
      have hm2 : kMeasure g (rest ++ (dec_dependents g.names deg (g.dependents node)).2)
          (result ++ [node]) ≤ fuel := by omega
      obtain ⟨suffix2, degF, hrun, hinvF, hminF⟩ := ih _ _ _ inv2 hm2
      have hassoc : (result ++ [node]) ++ suffix2 = result ++ node :: suffix2 := by
        simp
      refine ⟨node :: suffix2, degF, ?_, ?_, ?_⟩
      · have hstep : kahnAux g (fuel + 1) deg queue result
            = kahnAux g fuel (dec_dependents g.names deg (g.dependents node)).1
              (rest ++ (dec_dependents g.names deg (g.dependents node)).2)
              (result ++ [node]) := by
          simp only [kahnAux]
          rw [hsort]
        rw [hstep, hrun, hassoc]
      · rw [← hassoc]
        exact hinvF
      · intro j hj hjlt m hm1 hm2' hm3'
        by_cases hje : j = result.length
        · subst hje
          have htake : (result ++ node :: suffix2).take result.length = result := by
            rw [List.take_append_of_le_length (Nat.le_refl _), List.take_length]
          have hget : (result ++ node :: suffix2).get ⟨result.length, hjlt⟩ = node := by
            rw [List.get_eq_getElem, List.getElem_append_right (Nat.le_refl _)]
            simp
          rw [hget]
          rw [htake] at hm2' hm3'
          exact hmin m hm1 hm2' hm3'
        · have hj2 : (result ++ [node]).length ≤ j := by
            simp only [List.length_append, List.length_singleton]
            omega
          have hjlt2 : j < ((result ++ [node]) ++ suffix2).length := by
            rw [hassoc]
            exact hjlt
          have hres := hminF j hj2 hjlt2 m hm1
            (by rw [hassoc]; exact hm2') (by rw [hassoc]; exact hm3')
          have hgeteq : ((result ++ [node]) ++ suffix2).get ⟨j, hjlt2⟩
              = (result ++ node :: suffix2).get ⟨j, hjlt⟩ := List.get_of_eq hassoc _
          rw [hgeteq] at hres
          exact hres

theorem kahn_init (g : DepGraph) (hnd : g.names.Nodup) :
    KInv g g.in_degree0 (g.names.filter (fun n => decide (g.in_degree0 n = 0))) [] := by
  have hfilt : ∀ n : String,
      (g.inEdges n).filter (fun d => decide (d ∉ ([] : List String))) = g.inEdges n := by
    intro n
    apply List.filter_eq_self.mpr
    intro a _
    simp
  refine ⟨?_, List.nodup_nil, ?_, hnd.filter _, ?_, ?_, ?_⟩
  · intro n _
    rw [hfilt n]
    rfl
  · intro r hr
    simp at hr
  · intro q hq
    refine ⟨(List.mem_filter.mp hq).1, ?_⟩
    simp
  · intro n hn
    constructor
    · intro hq
      have h0 : g.in_degree0 n = 0 := by
        have := (List.mem_filter.mp hq).2
        simpa using this
      have hlen : (g.inEdges n).length = 0 := by
        unfold DepGraph.in_degree0 at h0
        exact_mod_cast h0
      have hnil : g.inEdges n = [] := List.length_eq_zero.mp hlen
      refine ⟨by simp, ?_⟩
      intro d hd
      rw [hnil] at hd
      simp at hd
    · rintro ⟨_, hsub⟩
      have hnil : g.inEdges n = [] := by
        apply List.eq_nil_iff_forall_not_mem.mpr
        intro d hd
        have := hsub d hd
        simp at this
      apply List.mem_filter.mpr
      refine ⟨hn, ?_⟩
      simp [DepGraph.in_degree0, hnil]
  · intro i hi
    simp at hi

theorem kahn_fuel_ge (g : DepGraph) (hnd : g.names.Nodup) :
    kMeasure g (g.names.filter (fun n => decide (g.in_degree0 n = 0))) []
      ≤ g.nodes.length + (g.nodes.map (fun p => p.2.length)).sum + 1 := by
  unfold kMeasure
  have h1 : (g.names.filter (fun n => decide (g.in_degree0 n = 0))).length
      ≤ g.nodes.length := by
    calc (g.names.filter (fun n => decide (g.in_degree0 n = 0))).length
        ≤ g.names.length := List.length_filter_le _ _
    _ = g.nodes.length := by simp [DepGraph.names]
  have h2 : (g.names.map
        (fun n => ((g.inEdges n).filter (fun d => decide (d ∉ ([] : List String)))).length)).sum
      ≤ (g.nodes.map (fun p => p.2.length)).sum := by
    have hmm : g.names.map
        (fun n => ((g.inEdges n).filter (fun d => decide (d ∉ ([] : List String)))).length)
        = g.nodes.map (fun p => ((g.inEdges p.1).filter
            (fun d => decide (d ∉ ([] : List String)))).length) := by
      unfold DepGraph.names
      rw [List.map_map]
      rfl
    rw [hmm]
    apply List.sum_le_sum
    intro p hp
    have hdo : g.depends_on p.1 = p.2 := DepGraph.depends_on_entry hnd hp
    calc ((g.inEdges p.1).filter (fun d => decide (d ∉ ([] : List String)))).length
        ≤ (g.inEdges p.1).length := List.length_filter_le _ _
    _ ≤ (g.edges p.1).length := List.length_filter_le _ _
    _ ≤ (g.depends_on p.1).length := (List.dedup_sublist _).length_le
    _ = p.2.length := by rw [hdo]
  omega

theorem topological_sort_spec (g : DepGraph) (hnd : g.names.Nodup) :
    ∃ degF : String → Int,
      KInv g degF [] g.topological_sort ∧ MinFrom g 0 g.topological_sort := by
  obtain ⟨suffix, degF, hrun, hinv, hmin⟩ :=
    kahnAux_run g hnd (g.nodes.length + (g.nodes.map (fun p => p.2.length)).sum + 1)
      g.in_degree0 (g.names.filter (fun n => decide (g.in_degree0 n = 0))) []
      (kahn_init g hnd) (kahn_fuel_ge g hnd)
  refine ⟨degF, ?_, ?_⟩
  · unfold DepGraph.topological_sort
    rw [hrun]
    simpa using hinv
  · unfold DepGraph.topological_sort
    rw [hrun]
    simpa using hmin

/-! ### DFS cycle detection: soundness on rank-acyclic graphs -/

theorem chain_rank_le {g : DepGraph} {rank : String → Nat}
    (hrank : g.RankAcyclic rank) :
    ∀ (pre : List String) (cur : String),
    List.Chain' g.dependsOnRel (pre ++ [cur]) →
    ∀ x ∈ pre ++ [cur], rank cur ≤ rank x := by
  intro pre
  induction pre with
  | nil =>
    intro cur _ x hx
    have hx2 : x = cur := by simpa using hx
    rw [hx2]
  | cons a rest ih =>
    intro cur hchain x hx
    have hchain2 : List.Chain' g.dependsOnRel (rest ++ [cur]) := by
      have := List.chain'_cons'.mp (by simpa using hchain)
      exact this.2
    have hhead : ∀ y ∈ (rest ++ [cur]).head?, g.dependsOnRel a y := by
      have := List.chain'_cons'.mp (by simpa using hchain)
      exact this.1
    have hx3 : x = a ∨ x ∈ rest ++ [cur] := by
      rw [List.cons_append, List.mem_cons] at hx
      exact hx
    rcases hx3 with rfl | hx2
    · cases hh : (rest ++ [cur]).head? with
      | none =>
        exfalso
        cases rest with
        | nil => simp at hh
        | cons b u => simp at hh
      | some y =>
        have hy : g.dependsOnRel x y := hhead y hh
        have hymem : y ∈ rest ++ [cur] := by
          cases hl : rest ++ [cur] with
          | nil => rw [hl] at hh; simp at hh
          | cons b u =>
            rw [hl] at hh
            simp at hh
            subst hh
            exact List.mem_cons_self _ _
        have h1 : rank cur ≤ rank y := ih cur hchain2 y hymem
        have h2 : rank y < rank x := hrank x hy.1 y hy.2.2 hy.2.1
        omega
    · exact ih cur hchain2 x hx2

theorem chain_snoc_not_mem {g : DepGraph} {rank : String → Nat}
    (hrank : g.RankAcyclic rank) {path : List String} {node : String}
    (hchain : List.Chain' g.dependsOnRel (path ++ [node])) : node ∉ path := by
  intro hmem
  cases hpath : path with
  | nil => rw [hpath] at hmem; simp at hmem
  | cons a rest =>
    have hne : path ≠ [] := by rw [hpath]; simp
    have hsplit : path.dropLast ++ [path.getLast hne] = path := List.dropLast_append_getLast hne
    have hchain_path : List.Chain' g.dependsOnRel path :=
      hchain.prefix ⟨[node], rfl⟩
    have hlast : g.dependsOnRel (path.getLast hne) node := by
      have hdec := List.chain'_append.mp hchain
      have hrel := hdec.2.2
      have hgl : path.getLast? = some (path.getLast hne) := List.getLast?_eq_getLast _ hne
      exact hrel _ hgl node rfl
    have h1 : rank node < rank (path.getLast hne) :=
      hrank _ hlast.1 node hlast.2.2 hlast.2.1
    have h2 : rank (path.getLast hne) ≤ rank node := by
      have hcle := chain_rank_le hrank path.dropLast (path.getLast hne)
        (by rw [hsplit]; exact hchain_path)
      apply hcle
      rw [hsplit]
      exact hmem
    omega

theorem dfs_sound (g : DepGraph) (rank : String → Nat) (hrank : g.RankAcyclic rank) :
    ∀ fuel : Nat,
    (∀ (node : String) (path : List String) (color : String → Nat),
      node ∈ g.names →
      List.Chain' g.dependsOnRel (path ++ [node]) →
      (∀ x, color x = 1 ↔ x ∈ path) →
      (g.dfsVisit fuel node path color).1 = none ∧
      (∀ x, (g.dfsVisit fuel node path color).2 x = 1 ↔ x ∈ path)) ∧
    (∀ (deps path : List String) (color : String → Nat) (cur : String),
      path ≠ [] → path.getLast? = some cur → cur ∈ g.names →
      (∀ d ∈ deps, d ∈ g.depends_on cur) →
      List.Chain' g.dependsOnRel path →
      (∀ x, color x = 1 ↔ x ∈ path) →
      (g.dfsScan fuel deps path color).1 = none ∧
      (∀ x, (g.dfsScan fuel deps path color).2 x = 1 ↔ x ∈ path)) := by
  intro fuel
  induction fuel with
  | zero =>
    constructor
    · intro node path color _ _ hgray
      exact ⟨rfl, hgray⟩
    · intro deps path color cur _ _ _ _ _ hgray
      exact ⟨rfl, hgray⟩
  | succ fuel ih =>
    obtain ⟨ihVisit, ihScan⟩ := ih
    constructor
    · -- visit: grey the node, scan its edges, then blacken it
      intro node path color hnode hchain hgray
      have hnmem : node ∉ path := chain_snoc_not_mem hrank hchain
      have hgray1 : ∀ x, updColor color node 1 x = 1 ↔ x ∈ path ++ [node] := by
        intro x
        unfold updColor
        by_cases hx : x = node
        · subst hx
          simp [hnmem]
        · simp [hx, hgray x]
      have hlast1 : (path ++ [node]).getLast? = some node := by
        simp
      have hne1 : path ++ [node] ≠ [] := by simp
      have hdeps1 : ∀ d ∈ g.edges node, d ∈ g.depends_on node :=
        fun d hd => DepGraph.mem_edges.mp hd
      obtain ⟨hs1, hs2⟩ := ihScan (g.edges node) (path ++ [node]) (updColor color node 1)
        node hne1 hlast1 hnode hdeps1 hchain hgray1
      have hp : g.dfsScan fuel (g.edges node) (path ++ [node]) (updColor color node 1)
          = (none, (g.dfsScan fuel (g.edges node) (path ++ [node]) (updColor color node 1)).2) :=
        Prod.ext hs1 rfl
      constructor
      · simp only [DepGraph.dfsVisit]
        rw [hp]
      · intro x
        simp only [DepGraph.dfsVisit]
        rw [hp]
        simp only [updColor]
        by_cases hx : x = node
        · subst hx
          simp [hnmem]
        · simp only [if_neg hx]
          rw [hs2 x]
          simp [List.mem_append, hx]
    · -- scan: walk the dependency list
      intro deps path color cur hne hlastc hcur hdeps hchain hgray
      cases deps with
      | nil =>
        refine ⟨?_, fun x => ?_⟩
        · simp only [DepGraph.dfsScan]
        · simp only [DepGraph.dfsScan]
          exact hgray x
      | cons d rest =>
        have hsplit : path.dropLast ++ [cur] = path := by
          have hds := List.dropLast_append_getLast hne
          have hgl : path.getLast? = some (path.getLast hne) := List.getLast?_eq_getLast _ hne
          rw [hgl] at hlastc
          injection hlastc with hl
          rw [hl] at hds
          exact hds
        by_cases hdn : d ∈ g.names
        · have hnot1 : ¬(color d = 1) := by
            intro hc
            have hdpath : d ∈ path := (hgray d).mp hc
            have h1 : rank d < rank cur := hrank cur hcur d (hdeps d (List.mem_cons_self d rest)) hdn
            have h2 : rank cur ≤ rank d := by
              have hcle := chain_rank_le hrank path.dropLast cur (by rw [hsplit]; exact hchain)
              apply hcle
              rw [hsplit]
              exact hdpath
            omega
          by_cases hd0 : color d = 0
          · have hchain2 : List.Chain' g.dependsOnRel (path ++ [d]) := by
              apply List.chain'_append.mpr
              refine ⟨hchain, List.chain'_singleton d, ?_⟩
              intro x hx y hy
              rw [hlastc] at hx
              have hx2 : cur = x := by simpa using hx
              have hy2 : d = y := by simpa using hy
              rw [← hx2, ← hy2]
              exact ⟨hcur, hdn, hdeps d (List.mem_cons_self d rest)⟩
            obtain ⟨hv1, hv2⟩ := ihVisit d path color hdn hchain2 hgray
            have hpv : g.dfsVisit fuel d path color
                = (none, (g.dfsVisit fuel d path color).2) := Prod.ext hv1 rfl
            have hstep : g.dfsScan (fuel + 1) (d :: rest) path color
                = g.dfsScan fuel rest path (g.dfsVisit fuel d path color).2 := by
              simp only [DepGraph.dfsScan]
              rw [if_neg (by simp [hdn]), if_neg hnot1, if_pos hd0, hpv]
            rw [hstep]
            exact ihScan rest path (g.dfsVisit fuel d path color).2 cur hne hlastc hcur
              (fun d2 hd2 => hdeps d2 (List.mem_cons_of_mem _ hd2)) hchain hv2
          · have hstep : g.dfsScan (fuel + 1) (d :: rest) path color
                = g.dfsScan fuel rest path color := by
              simp only [DepGraph.dfsScan]
              rw [if_neg (by simp [hdn]), if_neg hnot1, if_neg hd0]
            rw [hstep]
            exact ihScan rest path color cur hne hlastc hcur
              (fun d2 hd2 => hdeps d2 (List.mem_cons_of_mem _ hd2)) hchain hgray
        · have hstep : g.dfsScan (fuel + 1) (d :: rest) path color
              = g.dfsScan fuel rest path color := by
            simp only [DepGraph.dfsScan]
            rw [if_pos (by simp [hdn])]
          rw [hstep]
          exact ihScan rest path color cur hne hlastc hcur
            (fun d2 hd2 => hdeps d2 (List.mem_cons_of_mem _ hd2)) hchain hgray

theorem detect_cycle_none (g : DepGraph) (rank : String → Nat)
    (hrank : g.RankAcyclic rank) : g.detect_cycle = none := by
  unfold DepGraph.detect_cycle
  have hgo : ∀ (roots : List String) (color : String → Nat),
      (∀ r ∈ roots, r ∈ g.names) → (∀ x, color x ≠ 1) →
      DepGraph.detect_cycle.go g roots color = none := by
    intro roots
    induction roots with
    | nil => intro color _ _; rfl
    | cons n rest ih =>
      intro color hroots hgray
      by_cases h0 : color n = 0
      · have hgray2 : ∀ x, color x = 1 ↔ x ∈ ([] : List String) := by
          intro x
          simp [hgray x]
        obtain ⟨hv1, hv2⟩ := (dfs_sound g rank hrank g.dfsFuel).1 n [] color
          (hroots n (List.mem_cons_self n rest))
          (by simpa using List.chain'_singleton n) hgray2
        have hpv : g.dfsVisit g.dfsFuel n [] color
            = (none, (g.dfsVisit g.dfsFuel n [] color).2) := Prod.ext hv1 rfl
        unfold DepGraph.detect_cycle.go
        rw [if_pos h0, hpv]
        apply ih
        · intro r hr
          exact hroots r (List.mem_cons_of_mem _ hr)
        · intro x
          have := hv2 x
          simp at this
          simp [this]
      · unfold DepGraph.detect_cycle.go
        rw [if_neg h0]
        apply ih
        · intro r hr
          exact hroots r (List.mem_cons_of_mem _ hr)
        · exact hgray
  apply hgo
  · intro r hr
    exact hr
  · intro x
    simp

theorem find_missing_none (g : DepGraph)
    (hdeps : ∀ n ∈ g.names, ∀ d ∈ g.depends_on n, d ∈ g.names) :
    g.find_missing = none := by
  unfold DepGraph.find_missing
  have hgo : ∀ (l : List (String × List String)), (∀ p ∈ l, p.1 ∈ g.names) →
      DepGraph.find_missing.go g l = none := by
    intro l
    induction l with
    | nil => intro _; rfl
    | cons p rest ih =>
      intro hl
      unfold DepGraph.find_missing.go
      have hfind : (g.edges p.1).find? (fun d => decide (d ∉ g.names)) = none := by
        apply List.find?_eq_none.mpr
        intro d hd
        have hdn : d ∈ g.names :=
          hdeps p.1 (hl p (List.mem_cons_self p rest)) d (DepGraph.mem_edges.mp hd)
        simp [hdn]
      rw [hfind]
      exact ih (fun q hq => hl q (List.mem_cons_of_mem _ hq))
  apply hgo
  intro p hp
  exact List.mem_map.mpr ⟨p, hp, rfl⟩

theorem validate_ok (g : DepGraph) (rank : String → Nat) (hrank : g.RankAcyclic rank)
    (hdeps : ∀ n ∈ g.names, ∀ d ∈ g.depends_on n, d ∈ g.names) :
    g.validate = .ok () := by
  unfold DepGraph.validate
  rw [find_missing_none g hdeps, detect_cycle_none g rank hrank]

theorem nodup_indexOf_get {l : List String} (hnd : l.Nodup) :
    ∀ (i : Nat) (hi : i < l.length), l.indexOf (l.get ⟨i, hi⟩) = i := by
  induction l with
  | nil => intro i hi; simp at hi
  | cons a t ih =>
    intro i hi
    cases i with
    | zero => simp [List.indexOf_cons_self]
    | succ j =>
      have hj : j < t.length := by
        simp at hi
        omega
      have hget : (a :: t).get ⟨j + 1, hi⟩ = t.get ⟨j, hj⟩ := rfl
      rw [hget]
      have hmem : t.get ⟨j, hj⟩ ∈ t := List.get_mem t j hj
      have hne : a ≠ t.get ⟨j, hj⟩ := by
        intro he
        exact (List.nodup_cons.mp hnd).1 (he ▸ hmem)
      rw [List.indexOf_cons_ne _ hne]
      rw [ih (List.nodup_cons.mp hnd).2 j hj]

/-! ### C4: topological soundness and determinism of the execution order -/

/-- C4: for every acyclic dependency graph built from a set of steps (all
dependencies referring to steps of the set, step names unique),
`get_execution_order()` returns (without raising) a permutation of all
step names in which every step appears after all of its direct and
transitive dependencies, and the order is a deterministic function of the
graph, with ties among simultaneously-ready steps broken by ascending name
sort (`MinFrom g 0`: each emitted name is `<=` every step that was ready
and unemitted at that point). -/
theorem C4_execution_order_topological (g : DepGraph) (rank : String → Nat)
    (hnd : g.names.Nodup)
    (hdeps : ∀ n ∈ g.names, ∀ d ∈ g.depends_on n, d ∈ g.names)
    (hrank : g.RankAcyclic rank) :
    g.get_execution_order = .ok g.topological_sort ∧
    List.Perm g.topological_sort g.names ∧
    (∀ n ∈ g.names, ∀ d ∈ g.depends_on n,
      g.topological_sort.indexOf d < g.topological_sort.indexOf n) ∧
    (∀ a b : String, Relation.TransGen g.dependsOnRel a b →
      g.topological_sort.indexOf b < g.topological_sort.indexOf a) ∧
    MinFrom g 0 g.topological_sort ∧
    (∀ g2 : DepGraph, g2 = g → g2.get_execution_order = g.get_execution_order) := by
  obtain ⟨degF, hinv, hmin⟩ := topological_sort_spec g hnd
  have hcomplete : ∀ n ∈ g.names, n ∈ g.topological_sort := by
    intro n0 hn0
    by_contra hn0L
    have hS : n0 ∈ g.names.filter (fun n => decide (n ∉ g.topological_sort)) :=
      List.mem_filter.mpr ⟨hn0, by simp [hn0L]⟩
    cases harg : (g.names.filter (fun n => decide (n ∉ g.topological_sort))).argmin rank with
    | none =>
      rw [List.argmin_eq_none] at harg
      rw [harg] at hS
      simp at hS
    | some p =>
      have hpS : p ∈ g.names.filter (fun n => decide (n ∉ g.topological_sort)) :=
        List.argmin_mem harg
      have hpn : p ∈ g.names := (List.mem_filter.mp hpS).1
      have hpL : p ∉ g.topological_sort := by
        have := (List.mem_filter.mp hpS).2
        simpa using this
      have hready : ∀ d ∈ g.inEdges p, d ∈ g.topological_sort := by
        intro d hd
        obtain ⟨hddep, hdn⟩ := DepGraph.mem_inEdges.mp hd
        by_contra hdL
        have hdS : d ∈ g.names.filter (fun n => decide (n ∉ g.topological_sort)) :=
          List.mem_filter.mpr ⟨hdn, by simp [hdL]⟩
        have hle : rank p ≤ rank d := List.le_of_mem_argmin hdS harg
        have hlt : rank d < rank p := hrank p hpn d hddep hdn
        omega
      have hmem := (hinv.ready_iff p hpn).mpr ⟨hpL, hready⟩
      simp at hmem
  have hperm : List.Perm g.topological_sort g.names :=
    (List.perm_ext_iff_of_nodup hinv.res_nodup hnd).mpr
      (fun a => ⟨fun h => hinv.res_sub a h, fun h => hcomplete a h⟩)
  have hdirect : ∀ n ∈ g.names, ∀ d ∈ g.depends_on n,
      g.topological_sort.indexOf d < g.topological_sort.indexOf n := by
    intro n hn d hd
    have hdn : d ∈ g.names := hdeps n hn d hd
    have hnL : n ∈ g.topological_sort := hcomplete n hn
    obtain ⟨idx, hget⟩ := List.mem_iff_get.mp hnL
    have hdE : d ∈ g.inEdges n := DepGraph.mem_inEdges.mpr ⟨hd, hdn⟩
    have hdtake : d ∈ g.topological_sort.take idx.1 := by
      apply hinv.prec idx.1 idx.2
      have heta : g.topological_sort.get ⟨idx.1, idx.2⟩ = n := hget
      rw [heta]
      exact hdE
    have h1 : g.topological_sort.indexOf d < idx.1 := indexOf_lt_of_mem_take hdtake
    have h2 : g.topological_sort.indexOf n = idx.1 := by
      rw [← hget]
      exact nodup_indexOf_get hinv.res_nodup idx.1 idx.2
    omega
  have htrans : ∀ a b : String, Relation.TransGen g.dependsOnRel a b →
      g.topological_sort.indexOf b < g.topological_sort.indexOf a := by
    intro a b h
    induction h with
    | single hrel => exact hdirect _ hrel.1 _ hrel.2.2
    | tail hab hbc ih =>
      have h1 := hdirect _ hbc.1 _ hbc.2.2
      omega
  refine ⟨?_, hperm, hdirect, htrans, hmin, fun g2 h => by rw [h]⟩
  unfold DepGraph.get_execution_order
  rw [validate_ok g rank hrank hdeps]

/-- Witness for C4 at the concrete two-step graph `b`, `a depends_on b`. -/
theorem C4_execution_order_topological_witness :
    ((⟨[("b", []), ("a", ["b"])]⟩ : DepGraph).names.Nodup ∧
      (∀ n ∈ (⟨[("b", []), ("a", ["b"])]⟩ : DepGraph).names,
        ∀ d ∈ (⟨[("b", []), ("a", ["b"])]⟩ : DepGraph).depends_on n,
          d ∈ (⟨[("b", []), ("a", ["b"])]⟩ : DepGraph).names) ∧
      (⟨[("b", []), ("a", ["b"])]⟩ : DepGraph).RankAcyclic
        (fun n => if n = "a" then 1 else 0)) ∧
    ((⟨[("b", []), ("a", ["b"])]⟩ : DepGraph).get_execution_order
        = .ok (⟨[("b", []), ("a", ["b"])]⟩ : DepGraph).topological_sort ∧
      List.Perm (⟨[("b", []), ("a", ["b"])]⟩ : DepGraph).topological_sort
        (⟨[("b", []), ("a", ["b"])]⟩ : DepGraph).names ∧
      (∀ n ∈ (⟨[("b", []), ("a", ["b"])]⟩ : DepGraph).names,
        ∀ d ∈ (⟨[("b", []), ("a", ["b"])]⟩ : DepGraph).depends_on n,
          (⟨[("b", []), ("a", ["b"])]⟩ : DepGraph).topological_sort.indexOf d
            < (⟨[("b", []), ("a", ["b"])]⟩ : DepGraph).topological_sort.indexOf n) ∧
      (∀ a b : String,
        Relation.TransGen (⟨[("b", []), ("a", ["b"])]⟩ : DepGraph).dependsOnRel a b →
          (⟨[("b", []), ("a", ["b"])]⟩ : DepGraph).topological_sort.indexOf b
            < (⟨[("b", []), ("a", ["b"])]⟩ : DepGraph).topological_sort.indexOf a) ∧
      MinFrom ⟨[("b", []), ("a", ["b"])]⟩ 0
        (⟨[("b", []), ("a", ["b"])]⟩ : DepGraph).topological_sort ∧
      (∀ g2 : DepGraph, g2 = ⟨[("b", []), ("a", ["b"])]⟩ →
        g2.get_execution_order
          = (⟨[("b", []), ("a", ["b"])]⟩ : DepGraph).get_execution_order)) :=
  ⟨⟨by decide, by decide, by unfold DepGraph.RankAcyclic; decide⟩,
    C4_execution_order_topological ⟨[("b", []), ("a", ["b"])]⟩
      (fun n => if n = "a" then 1 else 0) (by decide) (by decide)
      (by unfold DepGraph.RankAcyclic; decide)⟩

/-! ### Executor: phase lemmas -/

theorem runTeardown_eq (runner : WorkflowStep → StepResult) :
    ∀ steps : List WorkflowStep,
    runTeardown runner steps = (steps.map runner, steps.map (fun s => s.name)) := by
  intro steps
  induction steps with
  | nil => rfl
  | cons s rest ih => simp [runTeardown, ih]

theorem runSetup_all_ok (runner : WorkflowStep → StepResult) :
    ∀ steps : List WorkflowStep,
    (∀ s ∈ steps, ¬((runner s).status = StepStatus.failed ∧ s.ignore_failure = false)) →
    runSetup runner steps = (steps.map runner, steps.map (fun s => s.name), none) := by
  intro steps
  induction steps with
  | nil => intro _; rfl
  | cons s rest ih =>
    intro h
    have hs := h s (List.mem_cons_self s rest)
    have hcond : ¬((runner s).status = StepStatus.failed ∧ ¬ s.ignore_failure = true) := by
      intro hc
      exact hs ⟨hc.1, by simpa using hc.2⟩
    simp only [runSetup, if_neg hcond]
    rw [ih (fun q hq => h q (List.mem_cons_of_mem _ hq))]
    simp

theorem execute_ok (runner : WorkflowStep → StepResult) (wf : Workflow)
    (order : List String)
    (hsu : (runSetup runner wf.setup).2.2 = none)
    (hord : wf.graph.get_execution_order = Except.ok order) :
    execute runner wf = finish_result wf (runSetup runner wf.setup)
      (runMain wf runner order ⟨[], [], [], false, none⟩)
      (runTeardown runner wf.teardown) := by
  unfold execute
  rw [hord]
  cases hsu2 : runSetup runner wf.setup with
  | mk a b =>
    cases b with
    | mk b1 b2 =>
      rw [hsu2] at hsu
      simp at hsu
      subst hsu
      simp

theorem finish_result_teardown (wf : Workflow) (su : List StepResult × List String × Option String)
    (ms : MainState) (td : List StepResult × List String) :
    (finish_result wf su ms td).1.teardown_results = td.1 ∧
    (finish_result wf su ms td).2 = su.2.1 ++ ms.trace ++ td.2 ∧
    (finish_result wf su ms td).1.setup_results = su.1 ∧
    (finish_result wf su ms td).1.step_results = ms.results := by
  unfold finish_result
  dsimp only
  split <;> exact ⟨rfl, rfl, rfl, rfl⟩

theorem finish_result_failed (wf : Workflow) (su : List StepResult × List String × Option String)
    (ms : MainState) (td : List StepResult × List String)
    (h : ms.abort = true ∨ ∃ r ∈ su.1 ++ ms.results ++ td.1, r.status = StepStatus.failed) :
    (finish_result wf su ms td).1.status = StepStatus.failed := by
  have hcond : ms.abort = true ∨
      0 < WorkflowResult.failed_steps
        { workflow_name := wf.name, status := StepStatus.pending,
          setup_results := su.1, step_results := ms.results,
          teardown_results := td.1, error_message := ms.error_message } := by
    rcases h with h | ⟨r, hr, hst⟩
    · exact Or.inl h
    · right
      unfold WorkflowResult.failed_steps
      apply List.length_pos.mpr
      intro hnil
      have hmem : r ∈ (su.1 ++ ms.results ++ td.1).filter
          (fun s => decide (s.status = StepStatus.failed)) :=
        List.mem_filter.mpr ⟨hr, by simp [hst]⟩
      rw [hnil] at hmem
      simp at hmem
  unfold finish_result
  dsimp only
  rw [if_pos hcond]

theorem runMain_all_passed (wf : Workflow) (runner : WorkflowStep → StepResult) :
    ∀ (order : List String) (st : MainState),
    (∀ step ∈ wf.steps, (runner step).status = StepStatus.passed) →
    st.abort = false →
    (runMain wf runner order st).abort = false ∧
    (∀ r ∈ (runMain wf runner order st).results,
      r ∈ st.results ∨ r.status = StepStatus.passed) := by
  intro order
  induction order with
  | nil =>
    intro st _ hab
    exact ⟨hab, fun r hr => Or.inl hr⟩
  | cons n rest ih =>
    intro st h hab
    simp only [runMain]
    rw [if_neg (by simp [hab])]
    cases hget : wf.get_step n with
    | none => exact ih st h hab
    | some step =>
      have hstep : step ∈ wf.steps := List.mem_of_find?_eq_some hget
      have hruns : (runner step).status = StepStatus.passed := h step hstep
      dsimp only
      rw [if_pos hruns]
      have hres := ih { st with results := st.results ++ [runner step], trace := st.trace ++ [step.name], completed := st.completed ++ [n] } h hab
      refine ⟨hres.1, ?_⟩
      intro r hr
      rcases hres.2 r hr with hmem | hp
      · simp at hmem
        rcases hmem with hmem | hmem
        · exact Or.inl hmem
        · right
          rw [hmem]
          exact hruns
      · exact Or.inr hp

/-! ### C1: teardown failure and the final workflow status -/

/-- Counterexample to C1 as stated: with one passing main step and one
teardown step whose result is FAILED, the final status is FAILED (not
PASSED), because `failed_steps` counts teardown results and `execute`
finishes FAILED whenever `failed_steps > 0`. -/
theorem C1_counterexample_teardown_flips_status :
    (∀ r ∈ (execute runnerC1 wfC1).1.setup_results, r.status = StepStatus.passed) ∧
    (∀ r ∈ (execute runnerC1 wfC1).1.step_results, r.status = StepStatus.passed) ∧
    (∃ r ∈ (execute runnerC1 wfC1).1.teardown_results, r.status = StepStatus.failed) ∧
    ¬((execute runnerC1 wfC1).1.status = StepStatus.passed) := by
  decide

/-- C1 (amended): for every workflow execution in which all setup and
main-phase steps pass but at least one teardown step's result is FAILED,
the final `WorkflowResult.status` is FAILED — a teardown failure does
flip the overall workflow status, because `failed_steps` counts results
from all three phase lists; the teardown `StepResult` is recorded in
`teardown_results`. -/
theorem C1_teardown_failure_flips_status (wf : Workflow)
    (runner : WorkflowStep → StepResult) (order : List String)
    (hsetup : ∀ s ∈ wf.setup, (runner s).status = StepStatus.passed)
    (hord : wf.graph.get_execution_order = Except.ok order)
    (hmain : ∀ s ∈ wf.steps, (runner s).status = StepStatus.passed)
    (htd : ∃ t ∈ wf.teardown, (runner t).status = StepStatus.failed) :
    (execute runner wf).1.status = StepStatus.failed ∧
    (execute runner wf).1.teardown_results = wf.teardown.map runner := by
  have hsu := runSetup_all_ok runner wf.setup
    (fun s hs hc => absurd hc.1 (by simp [hsetup s hs]))
  have hexec := execute_ok runner wf order (by rw [hsu]) hord
  rw [hexec]
  obtain ⟨t, ht, htf⟩ := htd
  constructor
  · apply finish_result_failed
    right
    refine ⟨runner t, ?_, htf⟩
    rw [runTeardown_eq]
    simp only [List.append_assoc, List.mem_append]
    right; right
    exact List.mem_map.mpr ⟨t, ht, rfl⟩
  · rw [(finish_result_teardown wf _ _ _).1, runTeardown_eq]

/-- Witness for the amended C1 at the concrete one-step workflow. -/
theorem C1_teardown_failure_flips_status_witness :
    (∀ s ∈ wfC1.setup, (runnerC1 s).status = StepStatus.passed) ∧
    wfC1.graph.get_execution_order = Except.ok ["a"] ∧
    (∀ s ∈ wfC1.steps, (runnerC1 s).status = StepStatus.passed) ∧
    (∃ t ∈ wfC1.teardown, (runnerC1 t).status = StepStatus.failed) ∧
    ((execute runnerC1 wfC1).1.status = StepStatus.failed ∧
      (execute runnerC1 wfC1).1.teardown_results = wfC1.teardown.map runnerC1) :=
  ⟨by decide, rfl, by decide, by decide,
    C1_teardown_failure_flips_status wfC1 runnerC1 ["a"] (by decide) rfl
      (by decide) (by decide)⟩

/-! ### C2: teardown unconditionality -/

/-- Counterexample to C2 as stated: a setup step failing without
`ignore_failure` returns from `execute` before the teardown loop, so the
declared teardown step is neither executed nor recorded. -/
theorem C2_counterexample_setup_failure_skips_teardown :
    wfC2.teardown ≠ [] ∧
    (execute runnerC2 wfC2).1.teardown_results = [] ∧
    "t" ∉ (execute runnerC2 wfC2).2 := by
  decide

/-- C2 (amended): whenever the setup phase completes without an
unignored failure and `get_execution_order` returns an order (no missing
dependency or cycle raised), every declared teardown step is executed
and its `StepResult` appended to `teardown_results` in declaration order,
regardless of the main-phase outcome (abort included); a setup-phase
failure without `ignore_failure`, or a validation exception from
`get_execution_order`, returns before the teardown loop. -/
theorem C2_teardown_runs_when_main_reached (wf : Workflow)
    (runner : WorkflowStep → StepResult) (order : List String)
    (hsetup : ∀ s ∈ wf.setup, ¬((runner s).status = StepStatus.failed ∧ s.ignore_failure = false))
    (hord : wf.graph.get_execution_order = Except.ok order) :
    (execute runner wf).1.teardown_results = wf.teardown.map runner ∧
    (∃ pre, (execute runner wf).2 = pre ++ wf.teardown.map (fun s => s.name)) := by
  have hsu := runSetup_all_ok runner wf.setup hsetup
  have hexec := execute_ok runner wf order (by rw [hsu]) hord
  rw [hexec]
  obtain ⟨h1, h2, _, _⟩ := finish_result_teardown wf (runSetup runner wf.setup)
    (runMain wf runner order ⟨[], [], [], false, none⟩) (runTeardown runner wf.teardown)
  rw [h1, h2, runTeardown_eq]
  exact ⟨rfl, ⟨(runSetup runner wf.setup).2.1
    ++ (runMain wf runner order ⟨[], [], [], false, none⟩).trace, rfl⟩⟩

/-- Witness for the amended C2: main phase aborts (its only step would
fail) yet the teardown step still runs and is recorded. -/
theorem C2_teardown_runs_when_main_reached_witness :
    (∀ s ∈ wfC1.setup, ¬((runnerC1 s).status = StepStatus.failed ∧ s.ignore_failure = false)) ∧
    wfC1.graph.get_execution_order = Except.ok ["a"] ∧
    ((execute runnerC1 wfC1).1.teardown_results = wfC1.teardown.map runnerC1 ∧
      (∃ pre, (execute runnerC1 wfC1).2 = pre ++ wfC1.teardown.map (fun s => s.name))) :=
  ⟨by decide, rfl,
    C2_teardown_runs_when_main_reached wfC1 runnerC1 ["a"] (by decide) rfl⟩

/-! ### C7: abort propagation in a three-step chain -/

/-- C7: for the three-step main phase `A -> B -> C` (`C` depends on `B`,
`B` depends on `A`, both with `on_failure=abort`, `ignore_failure`
false), when `A` passes and `B` fails the executor records `A`'s result
(PASSED), `B`'s result (FAILED) and `C` as SKIPPED with reason
"Skipped due to previous failure" without executing `C` (the
`_execute_step` trace is exactly `["A", "B"]`), and finishes the
workflow with status FAILED. -/
theorem C7_abort_chain (runner : WorkflowStep → StepResult)
    (hA : (runner stepA7).status = StepStatus.passed)
    (hB : (runner stepB7).status = StepStatus.failed) :
    (execute runner wfC7).1.step_results =
      [runner stepA7, runner stepB7,
        { step_name := "C", status := StepStatus.skipped,
          error_message := some "Skipped due to previous failure", extracted_data := [] }] ∧
    (execute runner wfC7).2 = ["A", "B"] ∧
    (execute runner wfC7).1.status = StepStatus.failed := by
  have hord : wfC7.graph.get_execution_order = Except.ok ["A", "B", "C"] := rfl
  have hexec := execute_ok runner wfC7 ["A", "B", "C"] rfl hord
  have hBne : ¬((runner stepB7).status = StepStatus.passed) := by
    rw [hB]
    intro hc
    cases hc
  have hgA : wfC7.get_step "A" = some stepA7 := rfl
  have hgB : wfC7.get_step "B" = some stepB7 := rfl
  have hgC : wfC7.get_step "C" = some stepC7 := rfl
  have h1 : runMain wfC7 runner ["A", "B", "C"] ⟨[], [], [], false, none⟩
      = runMain wfC7 runner ["B", "C"] ⟨[runner stepA7], ["A"], ["A"], false, none⟩ := by
    rw [runMain]
    rw [if_neg (by simp)]
    rw [hgA]
    dsimp only
    rw [if_pos hA]
    simp only [List.nil_append]
    rfl
  have h2 : runMain wfC7 runner ["B", "C"] ⟨[runner stepA7], ["A"], ["A"], false, none⟩
      = runMain wfC7 runner ["C"]
        ⟨[runner stepA7, runner stepB7], ["A", "B"], ["A"], true, some "Step 'B' failed"⟩ := by
    rw [runMain]
    rw [if_neg (by simp)]
    rw [hgB]
    dsimp only
    rw [if_neg hBne, if_pos hB]
    rw [if_pos (show stepB7.on_failure = FailureAction.abort ∧
      ¬ stepB7.ignore_failure = true by decide)]
    simp only [List.cons_append, List.nil_append]
    rfl
  have h3 : runMain wfC7 runner ["C"]
        ⟨[runner stepA7, runner stepB7], ["A", "B"], ["A"], true, some "Step 'B' failed"⟩
      = { results := [runner stepA7, runner stepB7,
            { step_name := "C", status := StepStatus.skipped,
              error_message := some "Skipped due to previous failure", extracted_data := [] }],
          trace := ["A", "B"], completed := ["A"], abort := true,
          error_message := some "Step 'B' failed" } := by
    rw [runMain]
    rw [if_pos (by rfl)]
    rw [hgC]
    dsimp only
    rw [runMain]
    simp only [List.cons_append, List.nil_append]
  rw [hexec, h1, h2, h3]
  refine ⟨?_, ?_, ?_⟩
  · rw [(finish_result_teardown _ _ _ _).2.2.2]
  · rw [(finish_result_teardown _ _ _ _).2.1]
    simp [runTeardown, runSetup, wfC7]
  · apply finish_result_failed
    exact Or.inl rfl

/-- Witness for C7 with a concrete runner. -/
theorem C7_abort_chain_witness :
    ((fun s => if s.name = "A" then (⟨"A", StepStatus.passed, none, []⟩ : StepResult)
        else ⟨s.name, StepStatus.failed, some "expectation failed", []⟩) stepA7).status
        = StepStatus.passed ∧
    ((fun s => if s.name = "A" then (⟨"A", StepStatus.passed, none, []⟩ : StepResult)
        else ⟨s.name, StepStatus.failed, some "expectation failed", []⟩) stepB7).status
        = StepStatus.failed ∧
    ((execute (fun s => if s.name = "A" then (⟨"A", StepStatus.passed, none, []⟩ : StepResult)
        else ⟨s.name, StepStatus.failed, some "expectation failed", []⟩) wfC7).1.step_results =
      [(⟨"A", StepStatus.passed, none, []⟩ : StepResult),
        ⟨"B", StepStatus.failed, some "expectation failed", []⟩,
        ⟨"C", StepStatus.skipped, some "Skipped due to previous failure", []⟩] ∧
      (execute (fun s => if s.name = "A" then (⟨"A", StepStatus.passed, none, []⟩ : StepResult)
        else ⟨s.name, StepStatus.failed, some "expectation failed", []⟩) wfC7).2 = ["A", "B"] ∧
      (execute (fun s => if s.name = "A" then (⟨"A", StepStatus.passed, none, []⟩ : StepResult)
        else ⟨s.name, StepStatus.failed, some "expectation failed", []⟩) wfC7).1.status
        = StepStatus.failed) := by
  refine ⟨by decide, by decide, ?_⟩
  have hres := C7_abort_chain
    (fun s => if s.name = "A" then (⟨"A", StepStatus.passed, none, []⟩ : StepResult)
      else ⟨s.name, StepStatus.failed, some "expectation failed", []⟩) (by decide) (by decide)
  refine ⟨?_, hres.2.1, hres.2.2⟩
  rw [hres.1]
  decide

/-! ### C9: loop extraction aggregation -/

theorem lookup_map_pair {α β : Type} (f : String → α → β) :
    ∀ (l : List (String × α)) (K : String),
    (l.map (fun p => (p.1, f p.1 p.2))).lookup K = (l.lookup K).map (f K) := by
  intro l
  induction l with
  | nil => intro K; rfl
  | cons p rest ih =>
    intro K
    by_cases hk : K = p.1
    · simp [List.lookup, hk]
    · have hbeq : (K == p.1) = false := by simp [hk]
      simp [List.lookup, hbeq, ih K]

theorem update_as_map_pair (collected : List (String × List V)) (k : String) (v : V) :
    collected.map (fun p => if p.1 = k then (p.1, p.2 ++ [v]) else p)
      = collected.map (fun p => (p.1, if p.1 = k then p.2 ++ [v] else p.2)) := by
  apply List.map_congr_left
  intro p _
  by_cases hp : p.1 = k
  · simp [hp]
  · simp [hp]

theorem lookup_none_of_not_mem_keys {α : Type} (K : String) :
    ∀ l : List (String × α), K ∉ l.map Prod.fst → l.lookup K = none := by
  intro l
  induction l with
  | nil => intro _; rfl
  | cons q t ih =>
    obtain ⟨a, b⟩ := q
    intro h
    have hq : K ≠ a := fun he => h (by simp [he])
    have hbeq : (K == a) = false := by simp [hq]
    simp only [List.lookup, hbeq]
    apply ih
    intro hc
    apply h
    simp only [List.map_cons, List.mem_cons]
    exact Or.inr hc

theorem collectInto_spec :
    ∀ (kvs : List (String × V)) (collected : List (String × List V)),
    (kvs.map Prod.fst).Nodup →
    (∀ p ∈ kvs, (collected.lookup p.1).isSome) →
    ∃ c2, collectInto collected kvs = some c2 ∧
      ∀ K, c2.lookup K = (collected.lookup K).map
        (fun l => match kvs.lookup K with
          | some v => l ++ [v]
          | none => l) := by
  intro kvs
  induction kvs with
  | nil =>
    intro collected _ _
    refine ⟨collected, rfl, ?_⟩
    intro K
    cases collected.lookup K <;> simp [List.lookup]
  | cons kv rest ih =>
    obtain ⟨k, v⟩ := kv
    intro collected hnd hsome
    have hkv : (collected.lookup k).isSome := hsome (k, v) (List.mem_cons_self _ rest)
    have hupd : collected.map (fun p => if p.1 = k then (p.1, p.2 ++ [v]) else p)
        = collected.map (fun p => (p.1, if p.1 = k then p.2 ++ [v] else p.2)) :=
      update_as_map_pair collected k v
    have hlook : ∀ K, (collected.map
          (fun p => if p.1 = k then (p.1, p.2 ++ [v]) else p)).lookup K
        = (collected.lookup K).map (fun l => if K = k then l ++ [v] else l) := by
      intro K
      rw [hupd, lookup_map_pair (fun q l => if q = k then l ++ [v] else l)]
    have hnd2 : (rest.map Prod.fst).Nodup := by
      simp only [List.map_cons] at hnd
      exact (List.nodup_cons.mp hnd).2
    have hk_rest : k ∉ rest.map Prod.fst := by
      simp only [List.map_cons] at hnd
      exact (List.nodup_cons.mp hnd).1
    have hrest := ih (collected.map (fun p => if p.1 = k then (p.1, p.2 ++ [v]) else p))
      hnd2
      (by
        intro p hp
        rw [hlook p.1]
        have hps := hsome p (List.mem_cons_of_mem _ hp)
        cases hcl : collected.lookup p.1 with
        | none => rw [hcl] at hps; simp at hps
        | some lv => simp)
    obtain ⟨c2, hc2, hc2look⟩ := hrest
    refine ⟨c2, ?_, ?_⟩
    · simp only [collectInto]
      rw [if_pos hkv]
      exact hc2
    · intro K
      rw [hc2look K, hlook K]
      by_cases hK : K = k
      · subst hK
        have hrnone : rest.lookup K = none := lookup_none_of_not_mem_keys K rest hk_rest
        cases hcl : collected.lookup K with
        | none => simp
        | some lv =>
          have hcons : (((K, v) :: rest).lookup K) = some v := by
            simp [List.lookup]
          rw [hcons, hrnone]
          simp
      · have hbeq : (K == k) = false := by simp [hK]
        have hcons : (((k, v) :: rest).lookup K) = rest.lookup K := by
          simp [List.lookup, hbeq]
        rw [hcons]
        cases hcl : collected.lookup K with
        | none => simp
        | some lv =>
          simp [hK]

theorem filterMap_all_some {α β : Type} (f : α → Option β) (g : α → β) :
    ∀ l : List α, (∀ x ∈ l, f x = some (g x)) → l.filterMap f = l.map g := by
  intro l
  induction l with
  | nil => intro _; rfl
  | cons a t ih =>
    intro h
    rw [List.filterMap_cons, h a (List.mem_cons_self a t),
      ih (fun x hx => h x (List.mem_cons_of_mem _ hx))]
    rfl

theorem init_collected_lookup (keys : List String) (Q : String) :
    (keys.map (fun k => (k, ([] : List V)))).lookup Q
      = if Q ∈ keys then some [] else none := by
  induction keys with
  | nil => simp [List.lookup]
  | cons k t ih =>
    by_cases hq : Q = k
    · subst hq
      simp [List.lookup]
    · have hbeq : (Q == k) = false := by simp [hq]
      simp only [List.map_cons, List.lookup, hbeq, ih]
      by_cases hm : Q ∈ t
      · rw [if_pos hm, if_pos (List.mem_cons_of_mem _ hm)]
      · rw [if_neg hm, if_neg (by simp [hq, hm])]

theorem loop_go_spec (name : String) (runner : Nat → IterOutcome)
    (untilB : Option (Nat → Bool)) (exts : Nat → List (String × V)) (keys : List String)
    (hknd : keys.Nodup) :
    ∀ (m i : Nat) (collected : List (String × List V)) (cur : List (String × V)),
    (∀ j, i ≤ j → j < i + m → (runner j).status = StepStatus.passed) →
    (∀ j, i ≤ j → j < i + m → (runner j).updates_extract = some (exts j)) →
    (∀ j, i ≤ j → j < i + m → (exts j).map Prod.fst = keys) →
    (∀ f, untilB = some f → ∀ j, i ≤ j → j < i + m → f j = false) →
    (∀ Q, (collected.lookup Q).isSome ↔ Q ∈ keys) →
    ∃ c2, execute_loop_count name runner untilB m i collected cur
        = some (loopFinish name c2) ∧
      ∀ Q lv, collected.lookup Q = some lv →
        c2.lookup Q = some (lv ++ ((List.range' i m).filterMap (fun j => (exts j).lookup Q))) := by
  intro m
  induction m with
  | zero =>
    intro i collected cur _ _ _ _ _
    refine ⟨collected, rfl, ?_⟩
    intro Q lv hlv
    rw [hlv]
    simp [List.range']
  | succ m ih =>
    intro i collected cur hpass hext hkeys huntil hinv
    have hi0 : i ≤ i := Nat.le_refl i
    have hilt : i < i + (m + 1) := by omega
    have hexti := hext i hi0 hilt
    have hkeysi := hkeys i hi0 hilt
    have hpassi := hpass i hi0 hilt
    have hndi : ((exts i).map Prod.fst).Nodup := by
      rw [hkeysi]
      exact hknd
    have hsomei : ∀ p ∈ exts i, (collected.lookup p.1).isSome := by
      intro p hp
      apply (hinv p.1).mpr
      rw [← hkeysi]
      exact List.mem_map.mpr ⟨p, hp, rfl⟩
    obtain ⟨cmid, hcmid, hcmidlook⟩ := collectInto_spec (exts i) collected hndi hsomei
    have hinv2 : ∀ Q, (cmid.lookup Q).isSome ↔ Q ∈ keys := by
      intro Q
      rw [hcmidlook Q]
      rw [← hinv Q]
      cases collected.lookup Q <;> simp
    have hnotfail : ¬((runner i).status = StepStatus.failed) := by
      rw [hpassi]
      intro hc
      cases hc
    have hrec := ih (i + 1) cmid (exts i)
      (fun j h1 h2 => hpass j (by omega) (by omega))
      (fun j h1 h2 => hext j (by omega) (by omega))
      (fun j h1 h2 => hkeys j (by omega) (by omega))
      (fun f hf j h1 h2 => huntil f hf j (by omega) (by omega))
      hinv2
    obtain ⟨c2, hc2run, hc2look⟩ := hrec
    have hstep : execute_loop_count name runner untilB (m + 1) i collected cur
        = execute_loop_count name runner untilB m (i + 1) cmid (exts i) := by
      simp only [execute_loop_count, hexti]
      rw [hcmid]
      dsimp only
      rw [if_neg hnotfail]
      cases huB : untilB with
      | none => rfl
      | some f =>
        dsimp only
        rw [huntil f huB i hi0 hilt]
        rfl
    refine ⟨c2, by rw [hstep]; exact hc2run, ?_⟩
    intro Q lv hlv
    have hmid : cmid.lookup Q = some (match (exts i).lookup Q with
        | some v => lv ++ [v]
        | none => lv) := by
      rw [hcmidlook Q, hlv]
      rfl
    have hfin := hc2look Q _ hmid
    rw [hfin]
    have hrange : List.range' i (m + 1) = i :: List.range' (i + 1) m := rfl
    rw [hrange, List.filterMap_cons]
    cases hlq : (exts i).lookup Q with
    | none => simp
    | some v => simp

/-- **C9.** For every loop step with a fixed count `n` whose `n` iterations
all pass (and whose optional `until` condition never fires), and every
extraction key `K` declared on the step, the final `extracted_data[K]` is
the list of the `n` per-iteration extracted values for `K` in iteration
order (index 0 first), not only the last iteration's value. -/
theorem C9_loop_collects_per_iteration (name : String) (runner : Nat → IterOutcome)
    (untilB : Option (Nat → Bool)) (n : Nat) (keys : List String) (K : String)
    (exts : Nat → List (String × V)) (vF : Nat → V)
    (hknd : keys.Nodup) (hK : K ∈ keys)
    (hpass : ∀ j, j < n → (runner j).status = StepStatus.passed)
    (hext : ∀ j, j < n → (runner j).updates_extract = some (exts j))
    (hkeys : ∀ j, j < n → (exts j).map Prod.fst = keys)
    (hvals : ∀ j, j < n → (exts j).lookup K = some (vF j))
    (huntil : ∀ f, untilB = some f → ∀ j, j < n → f j = false) :
    ∃ r, execute_loop_fixed name runner untilB n keys = some r ∧
      r.status = StepStatus.passed ∧
      r.extracted_data.lookup K
        = some (V.list (VList.ofList ((List.range n).map vF))) := by
  have hinv : ∀ Q, (((keys.map (fun k => (k, ([] : List V)))).lookup Q).isSome ↔ Q ∈ keys) := by
    intro Q
    rw [init_collected_lookup]
    by_cases hq : Q ∈ keys
    · simp [hq]
    · simp [hq]
  obtain ⟨c2, hrun, hlook⟩ := loop_go_spec name runner untilB exts keys hknd n 0
    (keys.map (fun k => (k, ([] : List V)))) []
    (fun j h1 h2 => hpass j (by omega))
    (fun j h1 h2 => hext j (by omega))
    (fun j h1 h2 => hkeys j (by omega))
    (fun f hf j h1 h2 => huntil f hf j (by omega))
    hinv
  have hinitK : (keys.map (fun k => (k, ([] : List V)))).lookup K = some [] := by
    rw [init_collected_lookup, if_pos hK]
  have hc2K := hlook K [] hinitK
  have hfm : (List.range' 0 n).filterMap (fun j => (exts j).lookup K)
      = (List.range n).map vF := by
    rw [← List.range_eq_range']
    exact filterMap_all_some _ vF (List.range n)
      (fun j hj => hvals j (List.mem_range.mp hj))
  refine ⟨loopFinish name c2, hrun, rfl, ?_⟩
  show (c2.map (fun p => (p.1, V.list (VList.ofList p.2)))).lookup K = _
  rw [lookup_map_pair (fun _ l => V.list (VList.ofList l)) c2 K, hc2K]
  rw [List.nil_append] at hc2K ⊢
  rw [hfm]
  rfl

/-- Witness for C9: a 3-iteration loop extracting `id`, each iteration
extracting the iteration index, yields `extracted_data["id"] = [0, 1, 2]`. -/
theorem C9_loop_collects_per_iteration_witness :
    ∃ r, execute_loop_fixed "L"
        (fun j => ⟨StepStatus.passed, some [("id", V.int j)], none⟩)
        none 3 ["id"] = some r ∧
      r.status = StepStatus.passed ∧
      r.extracted_data.lookup "id"
        = some (V.list (VList.ofList ((List.range 3).map (fun j => V.int j)))) := by
  exact C9_loop_collects_per_iteration "L"
    (fun j => ⟨StepStatus.passed, some [("id", V.int j)], none⟩)
    none 3 ["id"] "id" (fun j => [("id", V.int j)]) (fun j => V.int j)
    (by decide) (by decide)
    (fun j _ => rfl) (fun j _ => rfl) (fun j _ => rfl) (fun j _ => rfl)
    (fun f hf => by cases hf)

/-! ### C10: booleans and the `integer`/`number` type checks -/

/-- **C10.** For every boolean value `b`, the validator's type check with
expected type `integer` or `number` accepts `b` — in the
`$\x7btype:...\x7d` string form as well as the `\x7b"$type": ...\x7d`
object form — because Python `bool` is a subclass of `int`; only the
`boolean` type name distinguishes booleans from integers (`int` values
do not match `boolean`). -/
theorem C10_bool_matches_integer_and_number (re : ReOracle) (b : Bool) :
    check_type (V.bool b) "integer" = true ∧
    check_type (V.bool b) "number" = true ∧
    validate_value re (V.bool b) (V.str "$\x7btype:integer\x7d") = true ∧
    validate_value re (V.bool b) (V.str "$\x7btype:number\x7d") = true ∧
    validate_value re (V.bool b) (V.dict (VDict.cons "$type" (V.str "integer") VDict.nil)) = true ∧
    validate_value re (V.bool b) (V.dict (VDict.cons "$type" (V.str "number") VDict.nil)) = true ∧
    check_type (V.bool b) "boolean" = true ∧
    (∀ n : Int, check_type (V.int n) "boolean" = false) := by
  exact ⟨rfl, rfl, rfl, rfl, rfl, rfl, rfl, fun n => rfl⟩

/-! ### C6: header-name lookup -/

/-- Counterexample to C6 as stated: the actual headers hold the expected
name under a different capitalization (`X-TOKEN` for `X-Token`) with a
value that satisfies the expectation, yet the header check fails,
because the lookup tries only the exact name and the all-lowercase
name. -/
theorem C6_counterexample_header_case :
    header_check ⟨fun _ _ => false⟩ [("X-TOKEN", "a")] "X-Token" (V.str "a") = false ∧
    pyLower "X-TOKEN" = pyLower "X-Token" ∧
    validate_value ⟨fun _ _ => false⟩ (V.str "a") (V.str "a") = true :=
  ⟨rfl, rfl, rfl⟩

/-- C6 (amended): the header lookup tries the exact expected name first
and falls back to the all-lowercase name (Python `or`): when the exact
name holds a non-empty value the check validates that value; when the
exact name is absent the check validates the value under the lowercased
name, or `None` when that is also absent — a header stored under any
other capitalization is not found.  The expectation value goes through
the same `_validate_value` syntax as body leaves. -/
theorem C6_header_exact_then_lowercase (re : ReOracle)
    (headers : List (String × String)) (name : String) (exp : V) :
    (∀ v, headers.lookup name = some v → ¬(v = "") →
      header_check re headers name exp = validate_value re (V.str v) exp) ∧
    (headers.lookup name = none →
      (∀ w, headers.lookup (pyLower name) = some w →
        header_check re headers name exp = validate_value re (V.str w) exp) ∧
      (headers.lookup (pyLower name) = none →
        header_check re headers name exp = validate_value re V.null exp)) := by
  constructor
  · intro v hv hvne
    unfold header_check header_lookup
    rw [hv]
    dsimp only
    rw [if_neg hvne]
  · intro hnone
    constructor
    · intro w hw
      unfold header_check header_lookup
      rw [hnone]
      dsimp only
      rw [hw]
    · intro hnl
      unfold header_check header_lookup
      rw [hnone]
      dsimp only
      rw [hnl]

/-- Witness for the amended C6 at a concrete lowercase fallback. -/
theorem C6_header_exact_then_lowercase_witness :
    header_check ⟨fun _ _ => false⟩ [("x-token", "a")] "X-Token" (V.str "a")
      = validate_value ⟨fun _ _ => false⟩ (V.str "a") (V.str "a") ∧
    validate_value ⟨fun _ _ => false⟩ (V.str "a") (V.str "a") = true :=
  ⟨((C6_header_exact_then_lowercase ⟨fun _ _ => false⟩ [("x-token", "a")] "X-Token"
      (V.str "a")).2 rfl).1 "a" rfl, rfl⟩

/-! ### C3: the custom-check character guard -/

/-- Counterexample to C3 as stated: the guard admits every alphanumeric
character through `c.isalnum()`, and `eval` short-circuits `or`, so the
expression `1 or x` — whose character `x` is neither a digit, an
operator, a parenthesis, a quote, whitespace, nor part of the literal
`None` — passes the guard and evaluates to `True` rather than being
rejected as a non-match. -/
theorem C3_counterexample_alnum_hole :
    charGuardOk "1 or x" = true ∧
    custom_check_post "1 or x" = true ∧
    'x' ∈ "1 or x".data ∧
    'x' ∉ allowedChars := by
  decide

/-- C3 (amended): the guard is fail-closed only for characters that are
neither alphanumeric nor in the explicit allowed set: any such character
anywhere in the post-substitution expression makes the custom check
return `False` without evaluating.  Alphanumeric characters outside the
allowed set — hence arbitrary identifiers — pass the guard. -/
theorem C3_guard_rejects_nonalnum (expr : String) (c : Char)
    (hc : c ∈ expr.data) (hmem : c ∉ allowedChars) (haln : pyIsAlnum c = false) :
    custom_check_post expr = false := by
  unfold custom_check_post
  have hguard : ¬(charGuardOk expr = true) := by
    unfold charGuardOk
    rw [List.all_eq_true]
    intro hall
    have h1 := hall c hc
    rw [Bool.or_eq_true] at h1
    rcases h1 with h1 | h1
    · exact hmem (by simpa using h1)
    · rw [haln] at h1
      cases h1
  rw [if_neg hguard]

/-- Witness for the amended C3: `#` is neither alphanumeric nor allowed,
so `1 # 2` is rejected. -/
theorem C3_guard_rejects_nonalnum_witness :
    '#' ∈ "1 # 2".data ∧ '#' ∉ allowedChars ∧ pyIsAlnum '#' = false ∧
    custom_check_post "1 # 2" = false :=
  ⟨by decide, by decide, by decide,
    C3_guard_rejects_nonalnum "1 # 2" '#' (by decide) (by decide) (by decide)⟩

/-! ### C5: typed single-placeholder resolution vs string interpolation -/

theorem spGo_closed (l : List Char) (hnb : '\x7d' ∉ l) :
    ∀ acc : List Char, acc ≠ [] ∨ l ≠ [] →
    spGo acc (l ++ ['\x7d']) = some (String.mk (acc.reverse ++ l)) := by
  induction l with
  | nil =>
    intro acc hne
    have hacc : acc ≠ [] := by
      rcases hne with h | h
      · exact h
      · cases h rfl
    simp [spGo, hacc]
  | cons c cs ih =>
    intro acc _
    have hc : c ≠ '\x7d' := fun he => hnb (he ▸ List.mem_cons_self c cs)
    rw [List.cons_append]
    simp only [spGo]
    rw [if_neg hc]
    rw [ih (fun hm => hnb (List.mem_cons_of_mem _ hm)) (c :: acc) (Or.inl (by simp))]
    simp

theorem singlePlaceholder_full (x : String) (hxne : x.data ≠ [])
    (hxnb : '\x7d' ∉ x.data) :
    singlePlaceholder ("$\x7b" ++ x ++ "\x7d") = some x := by
  show singlePlaceholder (String.mk ('$' :: '\x7b' :: (x.data ++ ['\x7d']))) = some x
  simp only [singlePlaceholder, if_true]
  rw [spGo_closed x.data hxnb [] (Or.inr hxne)]
  simp

theorem singlePH_none (l : List Char) (tail : List Char) (hne : l ≠ [])
    (hnd : '$' ∉ l) :
    singlePlaceholder (String.mk (l ++ tail)) = none := by
  cases l with
  | nil => cases hne rfl
  | cons c t =>
    have hc : c ≠ '$' := fun he => hnd (he ▸ List.mem_cons_self c t)
    cases t with
    | nil =>
      cases tail with
      | nil => rfl
      | cons d u =>
        simp only [List.cons_append, List.nil_append, singlePlaceholder]
        rw [if_neg]
        intro hand
        exact hc hand.1
    | cons d u =>
      simp only [List.cons_append, singlePlaceholder]
      rw [if_neg]
      intro hand
      exact hc hand.1

theorem innerTo_closed (x : List Char) (hnb : '\x7d' ∉ x) :
    ∀ tail : List Char, innerTo (x ++ '\x7d' :: tail) = some (x, tail) := by
  induction x with
  | nil =>
    intro tail
    simp [innerTo]
  | cons c cs ih =>
    intro tail
    have hc : c ≠ '\x7d' := fun he => hnb (he ▸ List.mem_cons_self c cs)
    rw [List.cons_append]
    simp only [innerTo]
    rw [if_neg hc, ih (fun hm => hnb (List.mem_cons_of_mem _ hm)) tail]
    rfl

theorem findPH_pre (x : List Char) (hxne : x ≠ []) (hxnb : '\x7d' ∉ x) :
    ∀ pre : List Char, '$' ∉ pre →
    findPH (pre ++ '$' :: '\x7b' :: (x ++ ['\x7d'])) = some (pre, x, []) := by
  intro pre
  induction pre with
  | nil =>
    intro _
    rw [List.nil_append]
    simp only [findPH, if_true]
    have hin : innerTo (x ++ ['\x7d']) = some (x, []) := innerTo_closed x hxnb []
    rw [hin]
    dsimp only
    rw [if_neg hxne]
  | cons c t ih =>
    intro hnd
    have hc : c ≠ '$' := fun he => hnd (he ▸ List.mem_cons_self c t)
    rw [List.cons_append]
    simp only [findPH]
    rw [if_neg hc, ih (fun hm => hnd (List.mem_cons_of_mem _ hm))]
    rfl

theorem interpSub_nil (ev : String → Except String V) :
    ∀ fuel : Nat, interpSub ev fuel [] = Except.ok [] := by
  intro fuel
  cases fuel with
  | zero => rfl
  | succ n => rfl

/-- Counterexample to C5 as stated: with the context binding the key
`extract:a` to the integer `5`, evaluating the single placeholder
`$\x7bextract:a\x7d` does not return the bound value: the builtin
`extract:` form is matched before the context lookup and yields the
extraction-marker dict instead. -/
theorem C5_counterexample_builtin_shadows_context :
    VDict.get ctxC5 "extract:a" = some (V.int 5) ∧
    evalString oracleC5 ctxC5 "$\x7bextract:a\x7d"
      = Except.ok (V.dict (VDict.cons "__extract__" (V.str "a") VDict.nil)) ∧
    (∃ w, evalString oracleC5 ctxC5 "$\x7bextract:a\x7d" = Except.ok w ∧
      V.eqPy w (V.int 5) = false) :=
  ⟨rfl, rfl, V.dict (VDict.cons "__extract__" (V.str "a") VDict.nil), rfl, rfl⟩

/-- C5 (amended): for every context key `x` that matches none of the
builtin expression forms (`env:`, `now`, `uuid`, `timestamp`, `random`,
`faker:`, `extract:`, `steps.`, `response.`, `config:`), evaluating the
string that is exactly the placeholder of `x` returns the bound value
itself with its original type, while evaluating a string with text
before the placeholder returns a string with the placeholder replaced by
the value's string form (`None` becoming empty). -/
theorem C5_context_lookup_typed_and_interpolated (o : EngineOracles) (ctx : VDict)
    (x : String) (v : V) (pre : String)
    (hx : VDict.get ctx x = some v)
    (h1 : matchEnvForm x = none) (h2 : matchNowForm x = none)
    (h3 : ¬(x = "uuid")) (h4 : ¬(x = "timestamp"))
    (h5 : matchRandomForm x = none) (h6 : matchFakerForm x = none)
    (h7 : matchExtractForm x = none) (h8 : matchStepsForm x = none)
    (h9 : matchResponseForm x = none) (h10 : matchConfigForm x = none)
    (hxne : x.data ≠ []) (hxnb : '\x7d' ∉ x.data)
    (hpne : pre.data ≠ []) (hpd : '$' ∉ pre.data) :
    evalString o ctx ("$\x7b" ++ x ++ "\x7d") = Except.ok v ∧
    evalString o ctx (pre ++ "$\x7b" ++ x ++ "\x7d")
      = Except.ok (V.str (pre ++ strForm v)) := by
  have hev : do_evaluate_expr o ctx x = Except.ok v := by
    unfold do_evaluate_expr
    simp only [h1, h2]
    rw [if_neg h3, if_neg h4]
    simp only [h5, h6, h7, h8, h9, h10, hx]
  constructor
  · unfold evalString evaluate_string
    rw [singlePlaceholder_full x hxne hxnb]
    exact hev
  · have hdata : (pre ++ "$\x7b" ++ x ++ "\x7d").data
        = pre.data ++ '$' :: '\x7b' :: (x.data ++ ['\x7d']) := by
      simp
    have hs2 : (pre ++ "$\x7b" ++ x ++ "\x7d")
        = String.mk (pre.data ++ '$' :: '\x7b' :: (x.data ++ ['\x7d'])) := by
      conv_lhs => rw [show (pre ++ "$\x7b" ++ x ++ "\x7d")
        = String.mk (pre ++ "$\x7b" ++ x ++ "\x7d").data from rfl]
      rw [hdata]
    unfold evalString evaluate_string
    rw [hs2, singlePH_none pre.data _ hpne hpd]
    dsimp only
    simp only [interpSub]
    rw [findPH_pre x.data hxne hxnb pre.data hpd]
    dsimp only
    rw [show String.mk x.data = x from rfl]
    rw [hev]
    rw [interpSub_nil]
    dsimp only
    rw [show pre.data ++ (strForm v).data ++ [] = (pre ++ strForm v).data by simp]
    rfl

/-- Witness for the amended C5: `x` bound to `5` gives the typed integer
for `$\x7bx\x7d` and the interpolated string for `val=$\x7bx\x7d`. -/
theorem C5_context_lookup_typed_and_interpolated_witness :
    evalString oracleC5 (VDict.cons "x" (V.int 5) VDict.nil) "$\x7bx\x7d"
      = Except.ok (V.int 5) ∧
    evalString oracleC5 (VDict.cons "x" (V.int 5) VDict.nil) "val=$\x7bx\x7d"
      = Except.ok (V.str "val=5") :=
  C5_context_lookup_typed_and_interpolated oracleC5
    (VDict.cons "x" (V.int 5) VDict.nil) "x" (V.int 5) "val="
    rfl rfl rfl (by decide) (by decide) rfl rfl rfl rfl rfl rfl
    (by decide) (by decide) (by decide) (by decide)
